import Mathlib

/-!
# Sound synthesizer: ADSR envelope and oscillator bank

A shallow embedding of `src/main.cpp`.

Numbers of C++ type `double` are modelled as elements of an exact ordered field:
the envelope is written over any `LinearOrderedField` (so that it can be
evaluated over `ℚ` and reasoned about over `ℝ`), the oscillator over `ℝ`
because it needs `sin` and `asin`.  Rounding and overflow are outside the
model.

In the exact model a division by zero takes the field's value `x / 0 = 0`,
where the program gets an infinity or NaN.  `sEnvelopeADSR.GetAmplitudeIEEE`
repeats `GetAmplitude` over `Dbl`, finite numbers together with `+inf`, `-inf`
and NaN, and `getAmplitudeIEEE_finite` shows that the two agree whenever the
divisor of the branch taken is not zero.
-/

namespace synth

/-! ## The envelope -/

/-- The fields of `struct sEnvelopeADSR`, in the order of the source. -/
structure sEnvelopeADSR (α : Type) where
  dAttackTime : α
  dDecayTime : α
  dReleaseTime : α
  dSustainAmplitude : α
  dStartAmplitude : α
  dTriggerOnTime : α
  dTriggerOffTime : α
  bNoteOn : Bool
deriving DecidableEq

variable {α : Type}

/-- The constructor `sEnvelopeADSR()`. -/
def sEnvelopeADSR.ctor [LinearOrderedField α] : sEnvelopeADSR α where
  dAttackTime := 0.001
  dDecayTime := 1.0
  dReleaseTime := 1.0
  dStartAmplitude := 1.0
  dSustainAmplitude := 0.0
  dTriggerOnTime := 0.0
  dTriggerOffTime := 0.0
  bNoteOn := false

/-- The method `NoteOn(dTimeOn)`. -/
def sEnvelopeADSR.NoteOn (e : sEnvelopeADSR α) (dTimeOn : α) : sEnvelopeADSR α :=
  { e with dTriggerOnTime := dTimeOn, bNoteOn := true }

/-- The method `NoteOff(dTimeOff)`. -/
def sEnvelopeADSR.NoteOff (e : sEnvelopeADSR α) (dTimeOff : α) : sEnvelopeADSR α :=
  { e with dTriggerOffTime := dTimeOff, bNoteOn := false }

/-- The method `GetAmplitude(dTime)`: the three `if`s of the held branch run one
after the other on the local `dAmplitude`, then the final snap.  This is the
exact model: it is the program's value as long as the divisor of the branch
taken is not zero (`getAmplitudeIEEE_finite`); for a zero divisor see
`sEnvelopeADSR.GetAmplitudeIEEE`. -/
def sEnvelopeADSR.GetAmplitude [LinearOrderedField α] (e : sEnvelopeADSR α) (dTime : α) : α :=
  let dAmplitude : α := 0.0
  let dAmplitude : α :=
    if e.bNoteOn then
      let dEnvelopeTime := dTime - e.dTriggerOnTime
      -- Attack phase
      let dAmplitude :=
        if dEnvelopeTime ≤ e.dAttackTime then
          (e.dStartAmplitude / e.dAttackTime) * dEnvelopeTime
        else dAmplitude
      -- Decay phase
      let dAmplitude :=
        if dEnvelopeTime > e.dAttackTime ∧ dEnvelopeTime ≤ e.dAttackTime + e.dDecayTime then
          ((e.dSustainAmplitude - e.dStartAmplitude) / e.dDecayTime)
            * (dEnvelopeTime - e.dAttackTime) + e.dStartAmplitude
        else dAmplitude
      -- Sustain phase
      let dAmplitude :=
        if dEnvelopeTime > e.dAttackTime + e.dDecayTime then e.dSustainAmplitude
        else dAmplitude
      dAmplitude
    else
      -- Release
      let dEnvelopeTime := dTime - e.dTriggerOffTime
      ((0.0 - e.dSustainAmplitude) / e.dReleaseTime) * dEnvelopeTime + e.dSustainAmplitude
  if dAmplitude ≤ 0.0001 then 0.0 else dAmplitude

/-- One call made on an envelope by its driver: `NoteOn(t)` or `NoteOff(t)`. -/
inductive Trigger (α : Type) where
  | NoteOn (t : α)
  | NoteOff (t : α)
deriving DecidableEq

/-- Performs one call on the envelope. -/
def sEnvelopeADSR.trigger (e : sEnvelopeADSR α) : Trigger α → sEnvelopeADSR α
  | Trigger.NoteOn t => e.NoteOn t
  | Trigger.NoteOff t => e.NoteOff t

/-- Performs a finite sequence of calls, first call first. -/
def sEnvelopeADSR.run (e : sEnvelopeADSR α) (calls : List (Trigger α)) : sEnvelopeADSR α :=
  calls.foldl sEnvelopeADSR.trigger e

/-- The argument of a call when it is a `NoteOn`. -/
def Trigger.onTime? : Trigger α → Option α
  | Trigger.NoteOn t => some t
  | Trigger.NoteOff _ => none

/-- The argument of a call when it is a `NoteOff`. -/
def Trigger.offTime? : Trigger α → Option α
  | Trigger.NoteOn _ => none
  | Trigger.NoteOff t => some t

/-- Whether a call is a `NoteOn`. -/
def Trigger.isOn : Trigger α → Bool
  | Trigger.NoteOn _ => true
  | Trigger.NoteOff _ => false

/-! ## The formulas of the specification -/

/-- The attack ramp as the specification writes it:
`startAmplitude · elapsed / attackTime`. -/
def attackFormula [LinearOrderedField α] (e : sEnvelopeADSR α) (elapsed : α) : α :=
  e.dStartAmplitude * elapsed / e.dAttackTime

/-- The decay ramp as the specification writes it: from `startAmplitude` to
`sustainAmplitude` over `decayTime`, starting at `elapsed = attackTime`. -/
def decayFormula [LinearOrderedField α] (e : sEnvelopeADSR α) (elapsed : α) : α :=
  e.dStartAmplitude
    + (e.dSustainAmplitude - e.dStartAmplitude) * (elapsed - e.dAttackTime) / e.dDecayTime

/-- The release ramp as the specification writes it: from `sustainAmplitude`
to 0 over `releaseTime`. -/
def releaseFormula [LinearOrderedField α] (e : sEnvelopeADSR α) (elapsed : α) : α :=
  e.dSustainAmplitude - e.dSustainAmplitude * elapsed / e.dReleaseTime

/-- The snap policy as the specification writes it: `r` is the snapped value of
`v` when `r = v` for `v > 0.0001` and `r = 0` for `|v| ≤ 0.0001`. -/
def SnapsTo [LinearOrderedField α] (r v : α) : Prop :=
  (0.0001 < v → r = v) ∧ (|v| ≤ 0.0001 → r = 0)

/-- The final `if` of `GetAmplitude` taken alone: every value `≤ 0.0001`
becomes 0. -/
def snapLow [LinearOrderedField α] (v : α) : α :=
  if v ≤ 0.0001 then 0.0 else v

/-! ## Concrete envelopes used to evaluate the model -/

/-- The envelope of the bell voice while a note triggered at time 0 is held. -/
def bellHeld : sEnvelopeADSR ℚ :=
  { dAttackTime := 0.01, dDecayTime := 1.0, dReleaseTime := 1.0, dSustainAmplitude := 0.0,
    dStartAmplitude := 1.0, dTriggerOnTime := 0.0, dTriggerOffTime := 0.0, bNoteOn := true }

/-- A held envelope with a non-zero sustain level. -/
def padHeld : sEnvelopeADSR ℚ :=
  { dAttackTime := 0.01, dDecayTime := 1.0, dReleaseTime := 1.0, dSustainAmplitude := 0.5,
    dStartAmplitude := 1.0, dTriggerOnTime := 0.0, dTriggerOffTime := 0.0, bNoteOn := true }

/-- The same configuration after the note was released at time 0. -/
def padReleased : sEnvelopeADSR ℚ := padHeld.NoteOff 0

/-! ## The oscillator -/

/-- Modelled from the spec: the constant `PI` of `olcNoiseMaker.h`, a header
that is not part of the sources kept here; the specification writes it `π`. -/
noncomputable def PI : ℝ := Real.pi

/-- The value of `RAND_MAX` of the C library the program is built against
(the Microsoft runtime, `0x7fff`). -/
def RAND_MAX : ℕ := 32767

/-- The function `w`: frequency in Hertz to angular frequency. -/
noncomputable def w (dHertz : ℝ) : ℝ := dHertz * 2.0 * PI

/-- The constant `SINE`. -/
def SINE : ℤ := 0
/-- The constant `SQUARE`. -/
def SQUARE : ℤ := 1
/-- The constant `TRIANGLE`. -/
def TRIANGLE : ℤ := 2
/-- The constant `SAW_ANA`. -/
def SAW_ANA : ℤ := 3
/-- The constant `SAW_DIG`. -/
def SAW_DIG : ℤ := 4
/-- The constant `NOISE`. -/
def NOISE : ℤ := 5

/-- Rounding toward zero to an integer, as C does when it forms the quotient
of `fmod`. -/
noncomputable def truncToInt (x : ℝ) : ℤ := if 0 ≤ x then ⌊x⌋ else ⌈x⌉

/-- The C library function `fmod`: `x - n * y` where `n` is `x / y` with its
fractional part dropped, so that the result has the sign of `x` and a magnitude
below that of `y`. -/
noncomputable def fmod (x y : ℝ) : ℝ := x - (truncToInt (x / y) : ℝ) * y

/-- The loop `for (double n = 1.0; n <= 50.0; n++) dOutput += sin(n * dFreq) / n;`
of the `SAW_ANA` case, entered with the counter at `n` and the accumulator at
`dOutput`.  The counter is a `double` that only takes the whole values 1, 2, ...,
so it is a natural number here. -/
noncomputable def sawAnaLoop (dFreq : ℝ) (n : ℕ) (dOutput : ℝ) : ℝ :=
  if n ≤ 50 then sawAnaLoop dFreq (n + 1) (dOutput + Real.sin ((n : ℝ) * dFreq) / (n : ℝ))
  else dOutput
termination_by 51 - n

/-- The function `osc`.  The default arguments of the source are passed
explicitly (`nType = SINE`, `dLFOHertz = 0.0`, `dLFOAmplitude = 0.0`), and the
number returned by the call of `rand()` in the `NOISE` case is the extra
argument `nRand`. -/
noncomputable def osc (dHertz dTime : ℝ) (nType : ℤ) (dLFOHertz dLFOAmplitude : ℝ)
    (nRand : ℕ) : ℝ :=
  let dOutput : ℝ := 0.0
  let dFreq : ℝ := w dHertz * dTime + dLFOAmplitude * dHertz * Real.sin (w dLFOHertz * dTime)
  if nType = SINE then
    Real.sin dFreq
  else if nType = SQUARE then
    if Real.sin dFreq > 0.0 then 1.0 else -1.0
  else if nType = TRIANGLE then
    Real.arcsin (Real.sin dFreq) * (2.0 / PI)
  else if nType = SAW_ANA then
    sawAnaLoop dFreq 1 dOutput * (2.0 / PI)
  else if nType = SAW_DIG then
    (2.0 / PI) * (dHertz * PI * fmod dTime (1.0 / dHertz) - PI / 2.0)
  else if nType = NOISE then
    2.0 * ((nRand : ℝ) / (RAND_MAX : ℝ)) - 1.0
  else
    0.0

/-- The phase of the oscillator as the specification writes it:
`2π·pitchHz·time + lfoDepth·pitchHz·sin(2π·lfoHz·time)`. -/
noncomputable def phase (dHertz dTime dLFOHertz dLFOAmplitude : ℝ) : ℝ :=
  2 * Real.pi * dHertz * dTime
    + dLFOAmplitude * dHertz * Real.sin (2 * Real.pi * dLFOHertz * dTime)

/-- The additive sawtooth as the specification writes it: the sum of
`sin(n·phase)/n` for `n = 1..50`. -/
noncomputable def harmonicSum (x : ℝ) : ℝ :=
  ∑ n ∈ (Finset.Icc 1 50 : Finset ℕ), Real.sin ((n : ℝ) * x) / (n : ℝ)

/-! ## Instruments and the sample callback -/

/-- The data members of `struct instrument`.  The variant `bell` adds no
member, so a bell is a value of this type. -/
structure instrument (α : Type) where
  dVolume : α
  env : sEnvelopeADSR α

/-- The constructor `bell()`: the envelope member is first built by
`sEnvelopeADSR()`, then the five assignments of the body run.  No constructor
assigns `dVolume`; the value found in the object is the argument. -/
def bell.ctor [LinearOrderedField α] (dVolume : α) : instrument α :=
  let env : sEnvelopeADSR α := sEnvelopeADSR.ctor
  let env := { env with dAttackTime := 0.01 }
  let env := { env with dDecayTime := 1.0 }
  let env := { env with dStartAmplitude := 1.0 }
  let env := { env with dSustainAmplitude := 0.0 }
  let env := { env with dReleaseTime := 1.0 }
  { dVolume := dVolume, env := env }

/-- The method `bell::sound`.  It reads the global `dFrequencyOutput`, passed
here as the first argument after the object, and does not read its parameter
`dFrequency`.  The oscillator type `0` is `SINE`, so `rand()` is not called and
the last argument of `osc` is not read. -/
noncomputable def bell.sound (self : instrument ℝ) (dFrequencyOutput : ℝ)
    (dTime dFrequency : ℝ) : ℝ :=
  let dOutput : ℝ := self.env.GetAmplitude dTime *
    (1.0 * osc (dFrequencyOutput * 2.0) dTime 0 5 0.001 0
      + 0.5 * osc (dFrequencyOutput * 3.0) dTime 0 0.0 0.0 0
      + 0.25 * osc (dFrequencyOutput * 4.0) dTime 0 0.0 0.0 0)
  dOutput

/-- The global `synth::bell voice` as the program starts: an object of static
storage, zero-initialised before its constructor runs, so `dVolume` is 0. -/
def voice [LinearOrderedField α] : instrument α := bell.ctor 0.0

/-- The function `MakeNoise`.  The two globals it reads, `voice` and
`dFrequencyOutput`, are its first two arguments. -/
noncomputable def MakeNoise (v : instrument ℝ) (dFrequencyOutput : ℝ) (dTime : ℝ) : ℝ :=
  let dOutput : ℝ := bell.sound v dFrequencyOutput dTime dFrequencyOutput
  0.2 * dOutput

/-- The weighted sine mix of the bell as the specification writes it: partials
at 2, 3 and 4 times the pitch `p` with weights 1.0, 0.5 and 0.25, the first one
with vibrato (LFO 5 Hz, depth 0.001). -/
noncomputable def bellMix (t p : ℝ) : ℝ :=
  1.0 * osc (2 * p) t SINE 5 0.001 0 + 0.5 * osc (3 * p) t SINE 0 0 0
    + 0.25 * osc (4 * p) t SINE 0 0 0

/-- The voice of the program after `voice.env.NoteOn(0.0)`. -/
def voiceHeld [LinearOrderedField α] : instrument α :=
  { (voice : instrument α) with env := (voice : instrument α).env.NoteOn 0.0 }

/-! ## The key driver -/

/-- The global `dOctaveBaseFrequency`. -/
noncomputable def dOctaveBaseFrequency : ℝ := 220.0

/-- The global `dSemitoneRatio = pow(2.0, 1.0 / 12.0)`, with `pow` the real
power. -/
noncomputable def dSemitoneRatio : ℝ := (2.0 : ℝ) ^ ((1.0 : ℝ) / 12.0)

/-- A call made by the driver on `voice.env`: `NoteOn` while key `k` is
handled, or `NoteOff`, each with the time passed. -/
inductive KeyEvent where
  | NoteOn (k : ℕ) (t : ℝ)
  | NoteOff (t : ℝ)

/-- The index of the key when the call is a `NoteOn`. -/
def KeyEvent.onIndex? : KeyEvent → Option ℕ
  | KeyEvent.NoteOn k _ => some k
  | KeyEvent.NoteOff _ => none

/-- Whether the call is a `NoteOn`. -/
def KeyEvent.isOn : KeyEvent → Bool
  | KeyEvent.NoteOn _ _ => true
  | KeyEvent.NoteOff _ => false

/-- What the polling loop of `wmain` reads and writes: its locals `nCurrentKey`
and `bKeyPressed`, the global `dFrequencyOutput`, the envelope `voice.env`, and
the list of the calls made on that envelope so far, oldest first. -/
structure DriverState where
  nCurrentKey : ℤ
  bKeyPressed : Bool
  dFrequencyOutput : ℝ
  env : sEnvelopeADSR ℝ
  issued : List KeyEvent

/-- The body of `for (int k = 0; k < 16; k++)`.  `keyDown k` tells whether
`GetAsyncKeyState(keys[k]) & 0x8000` is non-zero and `t` is the value of
`sound.GetTime()`. -/
noncomputable def keyBody (keyDown : ℕ → Bool) (t : ℝ) (s : DriverState) (k : ℕ) :
    DriverState :=
  if keyDown k then
    let s : DriverState :=
      if s.nCurrentKey ≠ (k : ℤ) then
        let s := { s with dFrequencyOutput := dOctaveBaseFrequency * dSemitoneRatio ^ (k : ℝ) }
        let s := { s with env := s.env.NoteOn t, issued := s.issued ++ [KeyEvent.NoteOn k t] }
        { s with nCurrentKey := (k : ℤ) }
      else s
    { s with bKeyPressed := true }
  else s

/-- The `for` loop over the first `n` keys. -/
noncomputable def keyLoop (keyDown : ℕ → Bool) (t : ℝ) (n : ℕ) (s : DriverState) :
    DriverState :=
  (List.range n).foldl (keyBody keyDown t) s

/-- One iteration of `while (1)` in `wmain`.  Every call of `sound.GetTime()`
made during the iteration is taken to return the same time `t`. -/
noncomputable def pollingIteration (keyDown : ℕ → Bool) (t : ℝ) (s : DriverState) :
    DriverState :=
  let s := { s with bKeyPressed := false }
  let s := keyLoop keyDown t 16 s
  if !s.bKeyPressed then
    if s.nCurrentKey ≠ -1 then
      let s := { s with env := s.env.NoteOff t, issued := s.issued ++ [KeyEvent.NoteOff t] }
      { s with nCurrentKey := -1 }
    else s
  else s

/-- The state of the driver as the loop is entered: `nCurrentKey = -1`,
`dFrequencyOutput = 0.0`, the envelope of the fresh `voice`, no call made. -/
noncomputable def DriverState.init : DriverState :=
  { nCurrentKey := -1, bKeyPressed := false, dFrequencyOutput := 0.0,
    env := (voice : instrument ℝ).env, issued := [] }

/-- The calls made during one iteration: those recorded by the iteration
beyond the ones recorded before it. -/
noncomputable def stepEvents (keyDown : ℕ → Bool) (t : ℝ) (s : DriverState) : List KeyEvent :=
  (pollingIteration keyDown t s).issued.drop s.issued.length

/-- The largest index below 16 whose key is down, or `-1` when no key is down. -/
def largestDown (keyDown : ℕ → Bool) : ℤ :=
  match ((List.range 16).filter keyDown).getLast? with
  | some k => (k : ℤ)
  | none => -1

/-- The keyboard with no key down. -/
def noKeys : ℕ → Bool := fun _ => false

/-- The keyboard with the two keys of index 0 and 1 down. -/
def twoKeys : ℕ → Bool := fun k => decide (k = 0 ∨ k = 1)

/-- The keyboard with the single key of index 12 down. -/
def octaveKey : ℕ → Bool := fun k => decide (k = 12)

/-- The driver after a first iteration, at time 1, with the keys 0 and 1 down. -/
noncomputable def chordState : DriverState := pollingIteration twoKeys 1 DriverState.init

/-- The driver while key 3 is the current key. -/
noncomputable def key3State : DriverState := { DriverState.init with nCurrentKey := 3 }

/-! ## The envelope with the special values of `double` -/

/-- A value of C++ type `double` with its special values: a finite number,
`+inf`, `-inf` or NaN.  Arithmetic on finite numbers is exact, and the two
signed zeros are not told apart: a zero is `+0.0`. -/
inductive Dbl (α : Type) where
  | fin (x : α)
  | pinf
  | ninf
  | nan
deriving DecidableEq

/-- The infinity that has the sign of `x`, and NaN when `x` is zero: the value
of `x / 0.0` and of `inf * x` for a finite `x`. -/
def Dbl.infOfSign [LinearOrderedField α] (x : α) : Dbl α :=
  if 0 < x then Dbl.pinf else if x < 0 then Dbl.ninf else Dbl.nan

/-- The sum of two `double`s: `inf + (-inf)` is NaN. -/
def Dbl.add [LinearOrderedField α] : Dbl α → Dbl α → Dbl α
  | Dbl.fin a, Dbl.fin b => Dbl.fin (a + b)
  | Dbl.fin _, Dbl.pinf => Dbl.pinf
  | Dbl.fin _, Dbl.ninf => Dbl.ninf
  | Dbl.fin _, Dbl.nan => Dbl.nan
  | Dbl.pinf, Dbl.fin _ => Dbl.pinf
  | Dbl.pinf, Dbl.pinf => Dbl.pinf
  | Dbl.pinf, Dbl.ninf => Dbl.nan
  | Dbl.pinf, Dbl.nan => Dbl.nan
  | Dbl.ninf, Dbl.fin _ => Dbl.ninf
  | Dbl.ninf, Dbl.pinf => Dbl.nan
  | Dbl.ninf, Dbl.ninf => Dbl.ninf
  | Dbl.ninf, Dbl.nan => Dbl.nan
  | Dbl.nan, _ => Dbl.nan

/-- The difference of two `double`s: `inf - inf` is NaN. -/
def Dbl.sub [LinearOrderedField α] : Dbl α → Dbl α → Dbl α
  | Dbl.fin a, Dbl.fin b => Dbl.fin (a - b)
  | Dbl.fin _, Dbl.pinf => Dbl.ninf
  | Dbl.fin _, Dbl.ninf => Dbl.pinf
  | Dbl.fin _, Dbl.nan => Dbl.nan
  | Dbl.pinf, Dbl.fin _ => Dbl.pinf
  | Dbl.pinf, Dbl.pinf => Dbl.nan
  | Dbl.pinf, Dbl.ninf => Dbl.pinf
  | Dbl.pinf, Dbl.nan => Dbl.nan
  | Dbl.ninf, Dbl.fin _ => Dbl.ninf
  | Dbl.ninf, Dbl.pinf => Dbl.ninf
  | Dbl.ninf, Dbl.ninf => Dbl.nan
  | Dbl.ninf, Dbl.nan => Dbl.nan
  | Dbl.nan, _ => Dbl.nan

/-- The product of two `double`s: `inf * 0` is NaN. -/
def Dbl.mul [LinearOrderedField α] : Dbl α → Dbl α → Dbl α
  | Dbl.fin a, Dbl.fin b => Dbl.fin (a * b)
  | Dbl.fin a, Dbl.pinf => Dbl.infOfSign a
  | Dbl.fin a, Dbl.ninf => Dbl.infOfSign (-a)
  | Dbl.fin _, Dbl.nan => Dbl.nan
  | Dbl.pinf, Dbl.fin b => Dbl.infOfSign b
  | Dbl.pinf, Dbl.pinf => Dbl.pinf
  | Dbl.pinf, Dbl.ninf => Dbl.ninf
  | Dbl.pinf, Dbl.nan => Dbl.nan
  | Dbl.ninf, Dbl.fin b => Dbl.infOfSign (-b)
  | Dbl.ninf, Dbl.pinf => Dbl.ninf
  | Dbl.ninf, Dbl.ninf => Dbl.pinf
  | Dbl.ninf, Dbl.nan => Dbl.nan
  | Dbl.nan, _ => Dbl.nan

/-- The quotient of two `double`s: a finite non-zero number divided by zero is
an infinity, `0 / 0` and `inf / inf` are NaN, a finite number divided by an
infinity is 0. -/
def Dbl.div [LinearOrderedField α] : Dbl α → Dbl α → Dbl α
  | Dbl.fin a, Dbl.fin b => if b = 0 then Dbl.infOfSign a else Dbl.fin (a / b)
  | Dbl.fin _, Dbl.pinf => Dbl.fin 0
  | Dbl.fin _, Dbl.ninf => Dbl.fin 0
  | Dbl.fin _, Dbl.nan => Dbl.nan
  | Dbl.pinf, Dbl.fin b => if 0 ≤ b then Dbl.pinf else Dbl.ninf
  | Dbl.pinf, Dbl.pinf => Dbl.nan
  | Dbl.pinf, Dbl.ninf => Dbl.nan
  | Dbl.pinf, Dbl.nan => Dbl.nan
  | Dbl.ninf, Dbl.fin b => if 0 ≤ b then Dbl.ninf else Dbl.pinf
  | Dbl.ninf, Dbl.pinf => Dbl.nan
  | Dbl.ninf, Dbl.ninf => Dbl.nan
  | Dbl.ninf, Dbl.nan => Dbl.nan
  | Dbl.nan, _ => Dbl.nan

/-- The comparison `a <= b` of two `double`s: false as soon as one is NaN. -/
def Dbl.le [LinearOrderedField α] : Dbl α → Dbl α → Bool
  | Dbl.fin a, Dbl.fin b => decide (a ≤ b)
  | Dbl.fin _, Dbl.pinf => true
  | Dbl.fin _, Dbl.ninf => false
  | Dbl.fin _, Dbl.nan => false
  | Dbl.pinf, Dbl.fin _ => false
  | Dbl.pinf, Dbl.pinf => true
  | Dbl.pinf, Dbl.ninf => false
  | Dbl.pinf, Dbl.nan => false
  | Dbl.ninf, Dbl.fin _ => true
  | Dbl.ninf, Dbl.pinf => true
  | Dbl.ninf, Dbl.ninf => true
  | Dbl.ninf, Dbl.nan => false
  | Dbl.nan, _ => false

/-- The comparison `a > b` of two `double`s: false as soon as one is NaN. -/
def Dbl.gt [LinearOrderedField α] : Dbl α → Dbl α → Bool
  | Dbl.fin a, Dbl.fin b => decide (a > b)
  | Dbl.fin _, Dbl.pinf => false
  | Dbl.fin _, Dbl.ninf => true
  | Dbl.fin _, Dbl.nan => false
  | Dbl.pinf, Dbl.fin _ => true
  | Dbl.pinf, Dbl.pinf => false
  | Dbl.pinf, Dbl.ninf => true
  | Dbl.pinf, Dbl.nan => false
  | Dbl.ninf, Dbl.fin _ => false
  | Dbl.ninf, Dbl.pinf => false
  | Dbl.ninf, Dbl.ninf => false
  | Dbl.ninf, Dbl.nan => false
  | Dbl.nan, _ => false

/-- The method `GetAmplitude(dTime)` once more, line by line as
`sEnvelopeADSR.GetAmplitude`, with the arithmetic and the comparisons of
`double` in place of those of a field: here a division by zero gives an
infinity or NaN as in the program. -/
def sEnvelopeADSR.GetAmplitudeIEEE [LinearOrderedField α] (e : sEnvelopeADSR (Dbl α))
    (dTime : Dbl α) : Dbl α :=
  let dAmplitude : Dbl α := Dbl.fin 0.0
  let dAmplitude : Dbl α :=
    if e.bNoteOn then
      let dEnvelopeTime := Dbl.sub dTime e.dTriggerOnTime
      -- Attack phase
      let dAmplitude :=
        if Dbl.le dEnvelopeTime e.dAttackTime then
          Dbl.mul (Dbl.div e.dStartAmplitude e.dAttackTime) dEnvelopeTime
        else dAmplitude
      -- Decay phase
      let dAmplitude :=
        if Dbl.gt dEnvelopeTime e.dAttackTime
            && Dbl.le dEnvelopeTime (Dbl.add e.dAttackTime e.dDecayTime) then
          Dbl.add
            (Dbl.mul (Dbl.div (Dbl.sub e.dSustainAmplitude e.dStartAmplitude) e.dDecayTime)
              (Dbl.sub dEnvelopeTime e.dAttackTime))
            e.dStartAmplitude
        else dAmplitude
      -- Sustain phase
      let dAmplitude :=
        if Dbl.gt dEnvelopeTime (Dbl.add e.dAttackTime e.dDecayTime) then e.dSustainAmplitude
        else dAmplitude
      dAmplitude
    else
      -- Release
      let dEnvelopeTime := Dbl.sub dTime e.dTriggerOffTime
      Dbl.add
        (Dbl.mul (Dbl.div (Dbl.sub (Dbl.fin 0.0) e.dSustainAmplitude) e.dReleaseTime)
          dEnvelopeTime)
        e.dSustainAmplitude
  if Dbl.le dAmplitude (Dbl.fin 0.0001) then Dbl.fin 0.0 else dAmplitude

/-- An envelope all of whose numbers are finite, as an envelope of `double`s. -/
def sEnvelopeADSR.toIEEE (e : sEnvelopeADSR α) : sEnvelopeADSR (Dbl α) :=
  { dAttackTime := Dbl.fin e.dAttackTime, dDecayTime := Dbl.fin e.dDecayTime,
    dReleaseTime := Dbl.fin e.dReleaseTime, dSustainAmplitude := Dbl.fin e.dSustainAmplitude,
    dStartAmplitude := Dbl.fin e.dStartAmplitude, dTriggerOnTime := Dbl.fin e.dTriggerOnTime,
    dTriggerOffTime := Dbl.fin e.dTriggerOffTime, bNoteOn := e.bNoteOn }

/-- The range stated for the amplitude: exactly 0, or strictly greater than
0.0001. -/
def Dbl.ZeroOrAbove [LinearOrderedField α] (r : Dbl α) : Prop :=
  r = Dbl.fin 0 ∨ Dbl.gt r (Dbl.fin 0.0001) = true

/-- A held envelope with the bell's levels and an attack time of zero. -/
def zeroAttackHeld : sEnvelopeADSR ℚ :=
  { dAttackTime := 0.0, dDecayTime := 1.0, dReleaseTime := 1.0, dSustainAmplitude := 0.0,
    dStartAmplitude := 1.0, dTriggerOnTime := 0.0, dTriggerOffTime := 0.0, bNoteOn := true }

/-! ## Lemmas on the envelope -/

section EnvelopeLemmas

variable [LinearOrderedField α]

theorem snapLow_snapsTo (v : α) : SnapsTo (snapLow v) v := by
  unfold SnapsTo snapLow
  constructor
  · intro h
    rw [if_neg (not_le.mpr h)]
  · intro h
    rw [if_pos (le_trans (le_abs_self v) h)]
    norm_num

/-- While the note is held and the attack guard alone holds, the raw amplitude
is the one assigned by the attack branch. -/
theorem getAmplitude_attack (e : sEnvelopeADSR α) (t : α) (hOn : e.bNoteOn = true)
    (h1 : t - e.dTriggerOnTime ≤ e.dAttackTime)
    (h3 : ¬ (t - e.dTriggerOnTime > e.dAttackTime + e.dDecayTime)) :
    e.GetAmplitude t = snapLow ((e.dStartAmplitude / e.dAttackTime) * (t - e.dTriggerOnTime)) := by
  have h2 : ¬ (t - e.dTriggerOnTime > e.dAttackTime
      ∧ t - e.dTriggerOnTime ≤ e.dAttackTime + e.dDecayTime) := fun h => absurd h1 (not_le.mpr h.1)
  simp only [sEnvelopeADSR.GetAmplitude, snapLow, hOn, if_true, if_pos h1, if_neg h2, if_neg h3]

/-- While the note is held and the decay guard holds, the raw amplitude is the
one assigned by the decay branch. -/
theorem getAmplitude_decay (e : sEnvelopeADSR α) (t : α) (hOn : e.bNoteOn = true)
    (hLo : e.dAttackTime < t - e.dTriggerOnTime)
    (hHi : t - e.dTriggerOnTime ≤ e.dAttackTime + e.dDecayTime) :
    e.GetAmplitude t = snapLow (((e.dSustainAmplitude - e.dStartAmplitude) / e.dDecayTime)
      * (t - e.dTriggerOnTime - e.dAttackTime) + e.dStartAmplitude) := by
  have h1 : ¬ (t - e.dTriggerOnTime ≤ e.dAttackTime) := not_le.mpr hLo
  have h2 : t - e.dTriggerOnTime > e.dAttackTime
      ∧ t - e.dTriggerOnTime ≤ e.dAttackTime + e.dDecayTime := ⟨hLo, hHi⟩
  have h3 : ¬ (t - e.dTriggerOnTime > e.dAttackTime + e.dDecayTime) := not_lt.mpr hHi
  simp only [sEnvelopeADSR.GetAmplitude, snapLow, hOn, if_true, if_neg h1, if_pos h2, if_neg h3]

/-- While the note is held and the sustain guard holds, the raw amplitude is
the sustain level, whatever the two earlier branches assigned. -/
theorem getAmplitude_sustain (e : sEnvelopeADSR α) (t : α) (hOn : e.bNoteOn = true)
    (h3 : t - e.dTriggerOnTime > e.dAttackTime + e.dDecayTime) :
    e.GetAmplitude t = snapLow e.dSustainAmplitude := by
  simp only [sEnvelopeADSR.GetAmplitude, snapLow, hOn, if_true, if_pos h3]

/-- After the release the raw amplitude is the one assigned by the `else`
branch. -/
theorem getAmplitude_release (e : sEnvelopeADSR α) (t : α) (hOff : e.bNoteOn = false) :
    e.GetAmplitude t = snapLow (((0.0 - e.dSustainAmplitude) / e.dReleaseTime)
      * (t - e.dTriggerOffTime) + e.dSustainAmplitude) := by
  simp [sEnvelopeADSR.GetAmplitude, snapLow, hOff]

end EnvelopeLemmas

/-! ## The envelope phases -/

section EnvelopeClaims

variable [LinearOrderedField α]

/-- C1. Attack phase: for a held envelope with `dAttackTime > 0` and
`dDecayTime ≥ 0` and a time whose elapsed time since the trigger is at most
`dAttackTime`, `GetAmplitude` returns `v = dStartAmplitude * elapsed / dAttackTime`
when `v > 0.0001` and exactly 0 when `|v| ≤ 0.0001`. -/
theorem attack_phase (e : sEnvelopeADSR α) (t : α) (hOn : e.bNoteOn = true)
    (hA : 0 < e.dAttackTime) (hD : 0 ≤ e.dDecayTime)
    (hEl : t - e.dTriggerOnTime ≤ e.dAttackTime) :
    (0.0001 < e.dStartAmplitude * (t - e.dTriggerOnTime) / e.dAttackTime →
      e.GetAmplitude t = e.dStartAmplitude * (t - e.dTriggerOnTime) / e.dAttackTime) ∧
    (|e.dStartAmplitude * (t - e.dTriggerOnTime) / e.dAttackTime| ≤ 0.0001 →
      e.GetAmplitude t = 0) := by
  have h3 : ¬ (t - e.dTriggerOnTime > e.dAttackTime + e.dDecayTime) := by
    intro h
    linarith
  have hv : (e.dStartAmplitude / e.dAttackTime) * (t - e.dTriggerOnTime)
      = e.dStartAmplitude * (t - e.dTriggerOnTime) / e.dAttackTime := by
    field_simp
  rw [getAmplitude_attack e t hOn hEl h3, hv]
  exact snapLow_snapsTo _

/-- The attack theorem at the bell envelope, half-way up the ramp. -/
theorem attack_phase_witness :
    (bellHeld.bNoteOn = true ∧ 0 < bellHeld.dAttackTime ∧ 0 ≤ bellHeld.dDecayTime
      ∧ (0.005 : ℚ) - bellHeld.dTriggerOnTime ≤ bellHeld.dAttackTime)
    ∧ bellHeld.GetAmplitude 0.005 = 0.5 := by
  have hA : 0 < bellHeld.dAttackTime := by norm_num [bellHeld]
  have hD : 0 ≤ bellHeld.dDecayTime := by norm_num [bellHeld]
  have hEl : (0.005 : ℚ) - bellHeld.dTriggerOnTime ≤ bellHeld.dAttackTime := by
    norm_num [bellHeld]
  refine ⟨⟨rfl, hA, hD, hEl⟩, ?_⟩
  have h := (attack_phase bellHeld 0.005 rfl hA hD hEl).1 (by norm_num [bellHeld])
  rw [h]
  norm_num [bellHeld]

/-- C2. Decay phase: for a held envelope and a time whose elapsed time lies in
`(dAttackTime, dAttackTime + dDecayTime]`, `GetAmplitude` returns
`v = dStartAmplitude + (dSustainAmplitude - dStartAmplitude) * (elapsed - dAttackTime) / dDecayTime`
when `v > 0.0001` and exactly 0 when `|v| ≤ 0.0001`; the guards of the attack
branch and of the sustain branch are both false there. -/
theorem decay_phase (e : sEnvelopeADSR α) (t : α) (hOn : e.bNoteOn = true)
    (hLo : e.dAttackTime < t - e.dTriggerOnTime)
    (hHi : t - e.dTriggerOnTime ≤ e.dAttackTime + e.dDecayTime) :
    SnapsTo (e.GetAmplitude t) (decayFormula e (t - e.dTriggerOnTime))
    ∧ ¬ (t - e.dTriggerOnTime ≤ e.dAttackTime)
    ∧ ¬ (t - e.dTriggerOnTime > e.dAttackTime + e.dDecayTime) := by
  refine ⟨?_, not_le.mpr hLo, not_lt.mpr hHi⟩
  have hv : ((e.dSustainAmplitude - e.dStartAmplitude) / e.dDecayTime)
      * (t - e.dTriggerOnTime - e.dAttackTime) + e.dStartAmplitude
      = decayFormula e (t - e.dTriggerOnTime) := by
    unfold decayFormula
    ring
  rw [getAmplitude_decay e t hOn hLo hHi, hv]
  exact snapLow_snapsTo _

/-- The decay theorem at the bell envelope, half a second after the trigger. -/
theorem decay_phase_witness :
    (bellHeld.bNoteOn = true ∧ bellHeld.dAttackTime < (0.51 : ℚ) - bellHeld.dTriggerOnTime
      ∧ (0.51 : ℚ) - bellHeld.dTriggerOnTime ≤ bellHeld.dAttackTime + bellHeld.dDecayTime)
    ∧ bellHeld.GetAmplitude 0.51 = 0.5 := by
  have hLo : bellHeld.dAttackTime < (0.51 : ℚ) - bellHeld.dTriggerOnTime := by
    norm_num [bellHeld]
  have hHi : (0.51 : ℚ) - bellHeld.dTriggerOnTime
      ≤ bellHeld.dAttackTime + bellHeld.dDecayTime := by
    norm_num [bellHeld]
  refine ⟨⟨rfl, hLo, hHi⟩, ?_⟩
  have h := (decay_phase bellHeld 0.51 rfl hLo hHi).1.1 (by norm_num [bellHeld, decayFormula])
  rw [h]
  norm_num [bellHeld, decayFormula]

/-- C3. Sustain phase: for a held envelope, whatever its configuration, and a
time whose elapsed time exceeds `dAttackTime + dDecayTime`, `GetAmplitude`
returns `dSustainAmplitude` when it exceeds 0.0001 and exactly 0 when its
magnitude is at most 0.0001; the result is the same at every such time. -/
theorem sustain_phase (e : sEnvelopeADSR α) (t : α) (hOn : e.bNoteOn = true)
    (hEl : t - e.dTriggerOnTime > e.dAttackTime + e.dDecayTime) :
    SnapsTo (e.GetAmplitude t) e.dSustainAmplitude
    ∧ ∀ t2 : α, t2 - e.dTriggerOnTime > e.dAttackTime + e.dDecayTime →
        e.GetAmplitude t2 = e.GetAmplitude t := by
  constructor
  · rw [getAmplitude_sustain e t hOn hEl]
    exact snapLow_snapsTo _
  · intro t2 h2
    rw [getAmplitude_sustain e t hOn hEl, getAmplitude_sustain e t2 hOn h2]

/-- The sustain theorem at a held envelope with sustain level 0.5. -/
theorem sustain_phase_witness :
    (padHeld.bNoteOn = true
      ∧ (2 : ℚ) - padHeld.dTriggerOnTime > padHeld.dAttackTime + padHeld.dDecayTime)
    ∧ padHeld.GetAmplitude 2 = 0.5 := by
  have hEl : (2 : ℚ) - padHeld.dTriggerOnTime > padHeld.dAttackTime + padHeld.dDecayTime := by
    norm_num [padHeld]
  refine ⟨⟨rfl, hEl⟩, ?_⟩
  have h := (sustain_phase padHeld 2 rfl hEl).1.1 (by norm_num [padHeld])
  rw [h]
  norm_num [padHeld]

/-- C4. Release ramp: for a released envelope with `dReleaseTime > 0` and a time
whose elapsed time since the release lies in `[0, dReleaseTime]`, `GetAmplitude`
returns `v = dSustainAmplitude - dSustainAmplitude * elapsed / dReleaseTime` when
`v > 0.0001` and exactly 0 when `|v| ≤ 0.0001`; the ramp is `dSustainAmplitude`
at elapsed 0 and 0 at elapsed `dReleaseTime`, and the result does not depend on
`dTriggerOnTime`. -/
theorem release_ramp (e : sEnvelopeADSR α) (t : α) (hOff : e.bNoteOn = false)
    (hR : 0 < e.dReleaseTime) (h0 : 0 ≤ t - e.dTriggerOffTime)
    (h1 : t - e.dTriggerOffTime ≤ e.dReleaseTime) :
    SnapsTo (e.GetAmplitude t) (releaseFormula e (t - e.dTriggerOffTime))
    ∧ releaseFormula e 0 = e.dSustainAmplitude
    ∧ releaseFormula e e.dReleaseTime = 0
    ∧ ∀ x : α, ({ e with dTriggerOnTime := x } : sEnvelopeADSR α).GetAmplitude t
        = e.GetAmplitude t := by
  have hne : e.dReleaseTime ≠ 0 := ne_of_gt hR
  refine ⟨?_, ?_, ?_, ?_⟩
  · have hv : ((0.0 - e.dSustainAmplitude) / e.dReleaseTime) * (t - e.dTriggerOffTime)
        + e.dSustainAmplitude = releaseFormula e (t - e.dTriggerOffTime) := by
      unfold releaseFormula
      norm_num
      ring
    rw [getAmplitude_release e t hOff, hv]
    exact snapLow_snapsTo _
  · simp [releaseFormula]
  · unfold releaseFormula
    field_simp
  · intro x
    have hx := getAmplitude_release ({ e with dTriggerOnTime := x } : sEnvelopeADSR α) t hOff
    rw [hx, getAmplitude_release e t hOff]

/-- The release theorem at a released envelope with sustain level 0.5, a
quarter of the way down. -/
theorem release_ramp_witness :
    (padReleased.bNoteOn = false ∧ 0 < padReleased.dReleaseTime
      ∧ 0 ≤ (0.25 : ℚ) - padReleased.dTriggerOffTime
      ∧ (0.25 : ℚ) - padReleased.dTriggerOffTime ≤ padReleased.dReleaseTime)
    ∧ padReleased.GetAmplitude 0.25 = 0.375 := by
  have hR : 0 < padReleased.dReleaseTime := by
    norm_num [padReleased, padHeld, sEnvelopeADSR.NoteOff]
  have h0 : 0 ≤ (0.25 : ℚ) - padReleased.dTriggerOffTime := by
    norm_num [padReleased, padHeld, sEnvelopeADSR.NoteOff]
  have h1 : (0.25 : ℚ) - padReleased.dTriggerOffTime ≤ padReleased.dReleaseTime := by
    norm_num [padReleased, padHeld, sEnvelopeADSR.NoteOff]
  refine ⟨⟨rfl, hR, h0, h1⟩, ?_⟩
  have h := (release_ramp padReleased 0.25 rfl hR h0 h1).1.1
    (by norm_num [padReleased, padHeld, sEnvelopeADSR.NoteOff, releaseFormula])
  rw [h]
  norm_num [padReleased, padHeld, sEnvelopeADSR.NoteOff, releaseFormula]

/-- C5, as stated, fails: the released envelope with sustain 0.5 and release
time 1, three seconds after the release, has the ramp value `-1 < -0.0001`, and
`GetAmplitude` returns 0, not that negative value. -/
theorem release_unclamped_counterexample :
    padReleased.bNoteOn = false ∧ 0 < padReleased.dSustainAmplitude
    ∧ 0 < padReleased.dReleaseTime
    ∧ (3 : ℚ) - padReleased.dTriggerOffTime > padReleased.dReleaseTime
    ∧ padReleased.dSustainAmplitude
        * (1 - ((3 : ℚ) - padReleased.dTriggerOffTime) / padReleased.dReleaseTime) < -0.0001
    ∧ padReleased.GetAmplitude 3 = 0
    ∧ padReleased.GetAmplitude 3 ≠ padReleased.dSustainAmplitude
        * (1 - ((3 : ℚ) - padReleased.dTriggerOffTime) / padReleased.dReleaseTime) := by
  have hG : padReleased.GetAmplitude 3 = 0 := by
    norm_num [padReleased, padHeld, sEnvelopeADSR.NoteOff, sEnvelopeADSR.GetAmplitude]
  refine ⟨rfl, ?_, ?_, ?_, ?_, hG, ?_⟩
  · norm_num [padReleased, padHeld, sEnvelopeADSR.NoteOff]
  · norm_num [padReleased, padHeld, sEnvelopeADSR.NoteOff]
  · norm_num [padReleased, padHeld, sEnvelopeADSR.NoteOff]
  · norm_num [padReleased, padHeld, sEnvelopeADSR.NoteOff]
  · rw [hG]
    norm_num [padReleased, padHeld, sEnvelopeADSR.NoteOff]

/-- C5, amended. The release amplitude is clamped from below by the final snap:
for a released envelope with `dSustainAmplitude > 0` and `dReleaseTime > 0` and
a time whose elapsed time since the release exceeds `dReleaseTime` so that
`v = dSustainAmplitude * (1 - elapsed / dReleaseTime) < -0.0001`, `GetAmplitude`
returns exactly 0. -/
theorem release_past_end_is_zero (e : sEnvelopeADSR α) (t : α) (hOff : e.bNoteOn = false)
    (hS : 0 < e.dSustainAmplitude) (hR : 0 < e.dReleaseTime)
    (hEl : t - e.dTriggerOffTime > e.dReleaseTime)
    (hv : e.dSustainAmplitude * (1 - (t - e.dTriggerOffTime) / e.dReleaseTime) < -0.0001) :
    e.GetAmplitude t = 0 := by
  have hEq : ((0.0 - e.dSustainAmplitude) / e.dReleaseTime) * (t - e.dTriggerOffTime)
      + e.dSustainAmplitude
      = e.dSustainAmplitude * (1 - (t - e.dTriggerOffTime) / e.dReleaseTime) := by
    norm_num
    ring
  rw [getAmplitude_release e t hOff, hEq]
  unfold snapLow
  rw [if_pos]
  · norm_num
  · have h4 : (-0.0001 : α) ≤ 0.0001 := by norm_num
    exact le_trans (le_of_lt hv) h4

/-- The amended C5 at the released envelope with sustain 0.5, three seconds
after the release. -/
theorem release_past_end_is_zero_witness :
    (padReleased.bNoteOn = false ∧ 0 < padReleased.dSustainAmplitude
      ∧ 0 < padReleased.dReleaseTime
      ∧ (3 : ℚ) - padReleased.dTriggerOffTime > padReleased.dReleaseTime
      ∧ padReleased.dSustainAmplitude
          * (1 - ((3 : ℚ) - padReleased.dTriggerOffTime) / padReleased.dReleaseTime) < -0.0001)
    ∧ padReleased.GetAmplitude 3 = 0 := by
  have hS : 0 < padReleased.dSustainAmplitude := by
    norm_num [padReleased, padHeld, sEnvelopeADSR.NoteOff]
  have hR : 0 < padReleased.dReleaseTime := by
    norm_num [padReleased, padHeld, sEnvelopeADSR.NoteOff]
  have hEl : (3 : ℚ) - padReleased.dTriggerOffTime > padReleased.dReleaseTime := by
    norm_num [padReleased, padHeld, sEnvelopeADSR.NoteOff]
  have hv : padReleased.dSustainAmplitude
      * (1 - ((3 : ℚ) - padReleased.dTriggerOffTime) / padReleased.dReleaseTime) < -0.0001 := by
    norm_num [padReleased, padHeld, sEnvelopeADSR.NoteOff]
  exact ⟨⟨rfl, hS, hR, hEl, hv⟩, release_past_end_is_zero padReleased 3 rfl hS hR hEl hv⟩

/-- C7. Continuity at the phase boundaries: for a held envelope with
`dAttackTime > 0` and `dDecayTime > 0`, the attack formula and the decay formula
both give `dStartAmplitude` at elapsed `dAttackTime`, the decay formula gives
`dSustainAmplitude` at elapsed `dAttackTime + dDecayTime`, and `GetAmplitude`
returns the snapped `dStartAmplitude` at `dTriggerOnTime + dAttackTime` and the
snapped `dSustainAmplitude` at `dTriggerOnTime + dAttackTime + dDecayTime`. -/
theorem phase_boundaries (e : sEnvelopeADSR α) (hOn : e.bNoteOn = true)
    (hA : 0 < e.dAttackTime) (hD : 0 < e.dDecayTime) :
    attackFormula e e.dAttackTime = e.dStartAmplitude
    ∧ decayFormula e e.dAttackTime = e.dStartAmplitude
    ∧ attackFormula e e.dAttackTime = decayFormula e e.dAttackTime
    ∧ decayFormula e (e.dAttackTime + e.dDecayTime) = e.dSustainAmplitude
    ∧ SnapsTo (e.GetAmplitude (e.dTriggerOnTime + e.dAttackTime)) e.dStartAmplitude
    ∧ SnapsTo (e.GetAmplitude (e.dTriggerOnTime + e.dAttackTime + e.dDecayTime))
        e.dSustainAmplitude := by
  have hAne : e.dAttackTime ≠ 0 := ne_of_gt hA
  have hDne : e.dDecayTime ≠ 0 := ne_of_gt hD
  have hAtk : attackFormula e e.dAttackTime = e.dStartAmplitude := by
    unfold attackFormula
    field_simp
  have hDec : decayFormula e e.dAttackTime = e.dStartAmplitude := by
    simp [decayFormula]
  have hEnd : decayFormula e (e.dAttackTime + e.dDecayTime) = e.dSustainAmplitude := by
    unfold decayFormula
    field_simp
  refine ⟨hAtk, hDec, hAtk.trans hDec.symm, hEnd, ?_, ?_⟩
  · have h1 : e.dTriggerOnTime + e.dAttackTime - e.dTriggerOnTime ≤ e.dAttackTime := by
      simp
    have h3 : ¬ (e.dTriggerOnTime + e.dAttackTime - e.dTriggerOnTime
        > e.dAttackTime + e.dDecayTime) := by
      intro h
      have h' : e.dTriggerOnTime + e.dAttackTime - e.dTriggerOnTime = e.dAttackTime := by ring
      rw [h'] at h
      linarith
    have hv : (e.dStartAmplitude / e.dAttackTime)
        * (e.dTriggerOnTime + e.dAttackTime - e.dTriggerOnTime) = e.dStartAmplitude := by
      field_simp
    rw [getAmplitude_attack e _ hOn h1 h3, hv]
    exact snapLow_snapsTo _
  · have hLo : e.dAttackTime
        < e.dTriggerOnTime + e.dAttackTime + e.dDecayTime - e.dTriggerOnTime := by
      have h' : e.dTriggerOnTime + e.dAttackTime + e.dDecayTime - e.dTriggerOnTime
          = e.dAttackTime + e.dDecayTime := by ring
      rw [h']
      linarith
    have hHi : e.dTriggerOnTime + e.dAttackTime + e.dDecayTime - e.dTriggerOnTime
        ≤ e.dAttackTime + e.dDecayTime := by
      have h' : e.dTriggerOnTime + e.dAttackTime + e.dDecayTime - e.dTriggerOnTime
          = e.dAttackTime + e.dDecayTime := by ring
      rw [h']
    have hv : ((e.dSustainAmplitude - e.dStartAmplitude) / e.dDecayTime)
        * (e.dTriggerOnTime + e.dAttackTime + e.dDecayTime - e.dTriggerOnTime - e.dAttackTime)
        + e.dStartAmplitude = e.dSustainAmplitude := by
      field_simp
      ring
    rw [getAmplitude_decay e _ hOn hLo hHi, hv]
    exact snapLow_snapsTo _

/-- The continuity theorem at the held envelope with start level 1 and sustain
level 0.5: the amplitude is 1 at the end of the attack and 0.5 at the end of
the decay. -/
theorem phase_boundaries_witness :
    (padHeld.bNoteOn = true ∧ 0 < padHeld.dAttackTime ∧ 0 < padHeld.dDecayTime)
    ∧ padHeld.GetAmplitude 0.01 = 1 ∧ padHeld.GetAmplitude 1.01 = 0.5 := by
  have hA : 0 < padHeld.dAttackTime := by norm_num [padHeld]
  have hD : 0 < padHeld.dDecayTime := by norm_num [padHeld]
  have h := phase_boundaries padHeld rfl hA hD
  have h5 := h.2.2.2.2.1.1 (by norm_num [padHeld])
  have h6 := h.2.2.2.2.2.1 (by norm_num [padHeld])
  refine ⟨⟨rfl, hA, hD⟩, ?_, ?_⟩
  · have ht : (0.01 : ℚ) = padHeld.dTriggerOnTime + padHeld.dAttackTime := by
      norm_num [padHeld]
    rw [ht, h5]
    norm_num [padHeld]
  · have ht : (1.01 : ℚ)
        = padHeld.dTriggerOnTime + padHeld.dAttackTime + padHeld.dDecayTime := by
      norm_num [padHeld]
    rw [ht, h6]
    norm_num [padHeld]

/-- C8, as stated, fails: with attack time 0.01, release time 1 and sustain
level 0.5, after `NoteOn(0)` immediately followed by `NoteOff(0)` the amplitude
at time 0 is 0.5, the sustain level, not 0. -/
theorem zero_length_note_counterexample :
    0 < padHeld.dAttackTime ∧ 0 < padHeld.dReleaseTime
    ∧ ((padHeld.NoteOn 0).NoteOff 0).GetAmplitude 0 = 0.5
    ∧ ((padHeld.NoteOn 0).NoteOff 0).GetAmplitude 0 ≠ 0 := by
  have hG : ((padHeld.NoteOn 0).NoteOff 0).GetAmplitude 0 = 0.5 := by
    norm_num [padHeld, sEnvelopeADSR.NoteOn, sEnvelopeADSR.NoteOff, sEnvelopeADSR.GetAmplitude]
  refine ⟨?_, ?_, hG, ?_⟩
  · norm_num [padHeld]
  · norm_num [padHeld]
  · rw [hG]
    norm_num

/-- C8, amended. Zero-length note: for every envelope with `dAttackTime > 0` and
`dReleaseTime > 0` and every time `t0`, after `NoteOn(t0)` immediately followed
by `NoteOff(t0)` the release starts from the sustain level: `GetAmplitude(t0)`
is 0 when `dSustainAmplitude ≤ 0.0001` and `dSustainAmplitude` otherwise, and
`GetAmplitude(t0 + dReleaseTime) = 0`. -/
theorem zero_length_note (e : sEnvelopeADSR α) (t0 : α)
    (hA : 0 < e.dAttackTime) (hR : 0 < e.dReleaseTime) :
    ((e.NoteOn t0).NoteOff t0).GetAmplitude t0
      = (if e.dSustainAmplitude ≤ 0.0001 then 0 else e.dSustainAmplitude)
    ∧ ((e.NoteOn t0).NoteOff t0).GetAmplitude (t0 + e.dReleaseTime) = 0 := by
  have hne : e.dReleaseTime ≠ 0 := ne_of_gt hR
  have hOff : ((e.NoteOn t0).NoteOff t0).bNoteOn = false := rfl
  constructor
  · rw [getAmplitude_release _ t0 hOff]
    have h00 : (0.0 : α) = 0 := by norm_num
    simp [sEnvelopeADSR.NoteOn, sEnvelopeADSR.NoteOff, snapLow, h00]
  · rw [getAmplitude_release _ _ hOff]
    have hv : ((0.0 - ((e.NoteOn t0).NoteOff t0).dSustainAmplitude)
          / ((e.NoteOn t0).NoteOff t0).dReleaseTime)
        * (t0 + e.dReleaseTime - ((e.NoteOn t0).NoteOff t0).dTriggerOffTime)
        + ((e.NoteOn t0).NoteOff t0).dSustainAmplitude = 0 := by
      simp only [sEnvelopeADSR.NoteOn, sEnvelopeADSR.NoteOff]
      field_simp
      norm_num
    rw [hv]
    norm_num [snapLow]

/-- The amended C8 at the bell configuration (sustain level 0) and at the
configuration with sustain level 0.5, both triggered and released at time 2. -/
theorem zero_length_note_witness :
    (0 < bellHeld.dAttackTime ∧ 0 < bellHeld.dReleaseTime)
    ∧ ((bellHeld.NoteOn 2).NoteOff 2).GetAmplitude 2 = 0
    ∧ ((bellHeld.NoteOn 2).NoteOff 2).GetAmplitude (2 + bellHeld.dReleaseTime) = 0 := by
  have hA : 0 < bellHeld.dAttackTime := by norm_num [bellHeld]
  have hR : 0 < bellHeld.dReleaseTime := by norm_num [bellHeld]
  have h := zero_length_note bellHeld 2 hA hR
  refine ⟨⟨hA, hR⟩, ?_, h.2⟩
  rw [h.1]
  norm_num [bellHeld]

end EnvelopeClaims

/-! ## The trigger state -/

section TriggerClaims

theorem run_append (e : sEnvelopeADSR α) (cs : List (Trigger α)) (c : Trigger α) :
    e.run (cs ++ [c]) = (e.run cs).trigger c := by
  simp [sEnvelopeADSR.run, List.foldl_append]

/-- C6. Trigger-state invariant: after any finite sequence of `NoteOn` / `NoteOff`
calls, `bNoteOn` tells whether the last call was a `NoteOn` (its initial value
for the empty sequence), `dTriggerOnTime` is the argument of the last `NoteOn`
call and `dTriggerOffTime` that of the last `NoteOff` call (their initial values
when there was none), and the five configuration fields are unchanged. -/
theorem trigger_state_invariant (e : sEnvelopeADSR α) (calls : List (Trigger α)) :
    (e.run calls).bNoteOn = (calls.getLast?.map Trigger.isOn).getD e.bNoteOn
    ∧ (e.run calls).dTriggerOnTime
        = (calls.filterMap Trigger.onTime?).getLast?.getD e.dTriggerOnTime
    ∧ (e.run calls).dTriggerOffTime
        = (calls.filterMap Trigger.offTime?).getLast?.getD e.dTriggerOffTime
    ∧ (e.run calls).dAttackTime = e.dAttackTime
    ∧ (e.run calls).dDecayTime = e.dDecayTime
    ∧ (e.run calls).dReleaseTime = e.dReleaseTime
    ∧ (e.run calls).dStartAmplitude = e.dStartAmplitude
    ∧ (e.run calls).dSustainAmplitude = e.dSustainAmplitude := by
  induction calls using List.reverseRecOn with
  | nil => simp [sEnvelopeADSR.run]
  | append_singleton cs c ih =>
    obtain ⟨_, hOn, hOff, hA, hD, hR, hSt, hSu⟩ := ih
    rw [run_append]
    cases c with
    | NoteOn t =>
      simp [sEnvelopeADSR.trigger, sEnvelopeADSR.NoteOn, Trigger.isOn, Trigger.onTime?,
        Trigger.offTime?, List.filterMap_append, hOff, hA, hD, hR, hSt, hSu]
    | NoteOff t =>
      simp [sEnvelopeADSR.trigger, sEnvelopeADSR.NoteOff, Trigger.isOn, Trigger.onTime?,
        Trigger.offTime?, List.filterMap_append, hOn, hA, hD, hR, hSt, hSu]

end TriggerClaims

/-! ## The oscillator bank -/

section OscillatorClaims

theorem PI_pos : 0 < PI := Real.pi_pos

/-- The local `dFreq` of `osc` is the phase of the specification. -/
theorem dFreq_eq_phase (dHertz dTime dLFOHertz dLFOAmplitude : ℝ) :
    w dHertz * dTime + dLFOAmplitude * dHertz * Real.sin (w dLFOHertz * dTime)
      = phase dHertz dTime dLFOHertz dLFOAmplitude := by
  have h20 : (2.0 : ℝ) = 2 := by norm_num
  have h1 : w dHertz * dTime = 2 * Real.pi * dHertz * dTime := by
    unfold w PI
    rw [h20]
    ring
  have h2 : w dLFOHertz * dTime = 2 * Real.pi * dLFOHertz * dTime := by
    unfold w PI
    rw [h20]
    ring
  rw [h1, h2, phase]

theorem osc_sine (dHertz dTime dLFOHertz dLFOAmplitude : ℝ) (nRand : ℕ) :
    osc dHertz dTime SINE dLFOHertz dLFOAmplitude nRand
      = Real.sin (phase dHertz dTime dLFOHertz dLFOAmplitude) := by
  simp only [osc, if_true, dFreq_eq_phase]

theorem osc_square (dHertz dTime dLFOHertz dLFOAmplitude : ℝ) (nRand : ℕ) :
    osc dHertz dTime SQUARE dLFOHertz dLFOAmplitude nRand
      = if Real.sin (phase dHertz dTime dLFOHertz dLFOAmplitude) > 0 then 1 else -1 := by
  have hne : ¬ (SQUARE = SINE) := by decide
  simp only [osc, if_neg hne, if_true, dFreq_eq_phase]
  norm_num

theorem osc_triangle (dHertz dTime dLFOHertz dLFOAmplitude : ℝ) (nRand : ℕ) :
    osc dHertz dTime TRIANGLE dLFOHertz dLFOAmplitude nRand
      = Real.arcsin (Real.sin (phase dHertz dTime dLFOHertz dLFOAmplitude))
          * (2 / Real.pi) := by
  have h0 : ¬ (TRIANGLE = SINE) := by decide
  have h1 : ¬ (TRIANGLE = SQUARE) := by decide
  simp only [osc, if_neg h0, if_neg h1, if_true, dFreq_eq_phase, PI]
  norm_num

theorem osc_saw_dig (dHertz dTime dLFOHertz dLFOAmplitude : ℝ) (nRand : ℕ) :
    osc dHertz dTime SAW_DIG dLFOHertz dLFOAmplitude nRand
      = (2 / Real.pi) * (dHertz * Real.pi * fmod dTime (1 / dHertz) - Real.pi / 2) := by
  have h0 : ¬ (SAW_DIG = SINE) := by decide
  have h1 : ¬ (SAW_DIG = SQUARE) := by decide
  have h2 : ¬ (SAW_DIG = TRIANGLE) := by decide
  have h3 : ¬ (SAW_DIG = SAW_ANA) := by decide
  simp only [osc, if_neg h0, if_neg h1, if_neg h2, if_neg h3, if_true, PI]
  norm_num

/-- For a non-negative first argument and a positive second one `fmod` lies in
`[0, y)`. -/
theorem fmod_nonneg_range (x y : ℝ) (hx : 0 ≤ x) (hy : 0 < y) :
    fmod x y = Int.fract (x / y) * y ∧ 0 ≤ fmod x y ∧ fmod x y < y := by
  have hq : 0 ≤ x / y := div_nonneg hx (le_of_lt hy)
  have hEq : fmod x y = Int.fract (x / y) * y := by
    unfold fmod truncToInt
    rw [if_pos hq, Int.fract]
    field_simp
    ring
  refine ⟨hEq, ?_, ?_⟩
  · rw [hEq]
    exact mul_nonneg (Int.fract_nonneg _) (le_of_lt hy)
  · rw [hEq]
    calc Int.fract (x / y) * y < 1 * y := mul_lt_mul_of_pos_right (Int.fract_lt_one _) hy
      _ = y := one_mul y

/-- C9. Bounded output of the trigonometric waveforms: for every pitch, time and
LFO parameters, `osc` with `SINE` is `sin(phase)` and lies in `[-1, 1]`, with
`TRIANGLE` it is `asin(sin(phase)) * 2/π` and lies in `[-1, 1]`, and with
`SQUARE` it is exactly `-1` or `+1`. -/
theorem osc_trig_bounded (dHertz dTime dLFOHertz dLFOAmplitude : ℝ) (nRand : ℕ) :
    (osc dHertz dTime SINE dLFOHertz dLFOAmplitude nRand
        = Real.sin (phase dHertz dTime dLFOHertz dLFOAmplitude)
      ∧ -1 ≤ osc dHertz dTime SINE dLFOHertz dLFOAmplitude nRand
      ∧ osc dHertz dTime SINE dLFOHertz dLFOAmplitude nRand ≤ 1)
    ∧ (osc dHertz dTime TRIANGLE dLFOHertz dLFOAmplitude nRand
        = Real.arcsin (Real.sin (phase dHertz dTime dLFOHertz dLFOAmplitude)) * (2 / Real.pi)
      ∧ -1 ≤ osc dHertz dTime TRIANGLE dLFOHertz dLFOAmplitude nRand
      ∧ osc dHertz dTime TRIANGLE dLFOHertz dLFOAmplitude nRand ≤ 1)
    ∧ (osc dHertz dTime SQUARE dLFOHertz dLFOAmplitude nRand = -1
      ∨ osc dHertz dTime SQUARE dLFOHertz dLFOAmplitude nRand = 1) := by
  refine ⟨⟨osc_sine _ _ _ _ _, ?_, ?_⟩, ⟨osc_triangle _ _ _ _ _, ?_, ?_⟩, ?_⟩
  · rw [osc_sine]
    exact Real.neg_one_le_sin _
  · rw [osc_sine]
    exact Real.sin_le_one _
  · rw [osc_triangle]
    have hpi := Real.pi_pos
    have hlo := Real.neg_pi_div_two_le_arcsin
      (Real.sin (phase dHertz dTime dLFOHertz dLFOAmplitude))
    have hk : (0 : ℝ) ≤ 2 / Real.pi := le_of_lt (div_pos two_pos hpi)
    have hmul := mul_le_mul_of_nonneg_right hlo hk
    have hval : -(Real.pi / 2) * (2 / Real.pi) = -1 := by
      field_simp
      ring
    linarith
  · rw [osc_triangle]
    have hpi := Real.pi_pos
    have hhi := Real.arcsin_le_pi_div_two
      (Real.sin (phase dHertz dTime dLFOHertz dLFOAmplitude))
    have hk : (0 : ℝ) ≤ 2 / Real.pi := le_of_lt (div_pos two_pos hpi)
    have hmul := mul_le_mul_of_nonneg_right hhi hk
    have hval : Real.pi / 2 * (2 / Real.pi) = 1 := by
      field_simp
    linarith
  · rw [osc_square]
    by_cases h : Real.sin (phase dHertz dTime dLFOHertz dLFOAmplitude) > 0
    · right
      rw [if_pos h]
    · left
      rw [if_neg h]

/-- C10, as stated, fails: at pitch 1 Hz and time `-1/2` the remainder is `-1/2`
(the sign of the time) and the digital sawtooth is `-2`, outside `[-1, 1]`. -/
theorem saw_dig_counterexample :
    (0 : ℝ) < 1 ∧ fmod (-1 / 2) (1 / 1) = -1 / 2
    ∧ osc 1 (-1 / 2) SAW_DIG 0 0 0 = -2
    ∧ ¬ (-1 ≤ osc 1 (-1 / 2) SAW_DIG 0 0 0 ∧ osc 1 (-1 / 2) SAW_DIG 0 0 0 ≤ 1) := by
  have hc : ⌈(-1 / 2 : ℝ)⌉ = 0 := by
    rw [Int.ceil_eq_iff]
    norm_num
  have hf : fmod (-1 / 2) (1 / 1) = -1 / 2 := by
    unfold fmod truncToInt
    have hneg : ¬ ((0 : ℝ) ≤ -1 / 2 / (1 / 1)) := by norm_num
    rw [if_neg hneg]
    have hq : (-1 / 2 / (1 / 1) : ℝ) = -1 / 2 := by norm_num
    rw [hq, hc]
    norm_num
  have hv : osc 1 (-1 / 2) SAW_DIG 0 0 0 = -2 := by
    rw [osc_saw_dig, hf]
    have hpi : Real.pi ≠ 0 := ne_of_gt Real.pi_pos
    field_simp
    ring
  refine ⟨one_pos, hf, hv, ?_⟩
  rw [hv]
  norm_num

/-- C10, amended. Bounded output of the digital sawtooth: for every pitch
`dHertz > 0` and every time `dTime ≥ 0`, `osc` with `SAW_DIG` is
`(2/π) * (dHertz * π * fmod(dTime, 1/dHertz) - π/2)` and lies in `[-1, 1]`. -/
theorem saw_dig_bounded (dHertz dTime dLFOHertz dLFOAmplitude : ℝ) (nRand : ℕ)
    (hH : 0 < dHertz) (hT : 0 ≤ dTime) :
    osc dHertz dTime SAW_DIG dLFOHertz dLFOAmplitude nRand
      = (2 / Real.pi) * (dHertz * Real.pi * fmod dTime (1 / dHertz) - Real.pi / 2)
    ∧ -1 ≤ osc dHertz dTime SAW_DIG dLFOHertz dLFOAmplitude nRand
    ∧ osc dHertz dTime SAW_DIG dLFOHertz dLFOAmplitude nRand ≤ 1 := by
  have hy : 0 < 1 / dHertz := one_div_pos.mpr hH
  obtain ⟨_, hlo, hhi⟩ := fmod_nonneg_range dTime (1 / dHertz) hT hy
  have hpi := Real.pi_pos
  have hpne : Real.pi ≠ 0 := ne_of_gt hpi
  have hval : (2 / Real.pi) * (dHertz * Real.pi * fmod dTime (1 / dHertz) - Real.pi / 2)
      = 2 * (dHertz * fmod dTime (1 / dHertz)) - 1 := by
    field_simp
    ring
  have h0 : 0 ≤ dHertz * fmod dTime (1 / dHertz) := mul_nonneg (le_of_lt hH) hlo
  have h1 : dHertz * fmod dTime (1 / dHertz) < 1 := by
    have h := mul_lt_mul_of_pos_left hhi hH
    have h' : dHertz * (1 / dHertz) = 1 := by
      field_simp
    linarith
  refine ⟨osc_saw_dig _ _ _ _ _, ?_, ?_⟩
  · rw [osc_saw_dig, hval]
    linarith
  · rw [osc_saw_dig, hval]
    linarith

/-- The amended C10 at concert pitch: 440 Hz sampled at time 0 gives `-1`, the
bottom of the ramp. -/
theorem saw_dig_bounded_witness :
    ((0 : ℝ) < 440 ∧ (0 : ℝ) ≤ 0)
    ∧ -1 ≤ osc 440 0 SAW_DIG 0 0 0 ∧ osc 440 0 SAW_DIG 0 0 0 ≤ 1 :=
  ⟨⟨by norm_num, le_refl 0⟩, (saw_dig_bounded 440 0 0 0 0 (by norm_num) (le_refl 0)).2⟩

/-- C11, as stated, fails: at time 0 the phase is 0 and its sine is 0, and the
square wave is `-1`, not `+1`. -/
theorem square_tie_break_counterexample :
    Real.sin (phase 440 0 0 0) = 0 ∧ Real.sin (phase 440 0 0 0) ≥ 0
    ∧ osc 440 0 SQUARE 0 0 0 = -1 ∧ osc 440 0 SQUARE 0 0 0 ≠ 1 := by
  have hs : Real.sin (phase 440 0 0 0) = 0 := by
    simp [phase]
  have hv : osc 440 0 SQUARE 0 0 0 = -1 := by
    rw [osc_square, hs]
    norm_num
  refine ⟨hs, le_of_eq hs.symm, hv, ?_⟩
  rw [hv]
  norm_num

/-- C11, amended. Square-wave tie-break: for every pitch, time and LFO
parameters, `osc` with `SQUARE` returns `+1` when `sin(phase) > 0` and `-1` when
`sin(phase) ≤ 0`; in particular whenever `sin(phase) = 0`, as at `dTime = 0`,
the result is `-1`. -/
theorem square_tie_break (dHertz dTime dLFOHertz dLFOAmplitude : ℝ) (nRand : ℕ) :
    (Real.sin (phase dHertz dTime dLFOHertz dLFOAmplitude) > 0 →
      osc dHertz dTime SQUARE dLFOHertz dLFOAmplitude nRand = 1)
    ∧ (Real.sin (phase dHertz dTime dLFOHertz dLFOAmplitude) ≤ 0 →
      osc dHertz dTime SQUARE dLFOHertz dLFOAmplitude nRand = -1)
    ∧ (Real.sin (phase dHertz dTime dLFOHertz dLFOAmplitude) = 0 →
      osc dHertz dTime SQUARE dLFOHertz dLFOAmplitude nRand = -1)
    ∧ osc dHertz 0 SQUARE dLFOHertz dLFOAmplitude nRand = -1 := by
  refine ⟨?_, ?_, ?_, ?_⟩
  · intro h
    rw [osc_square, if_pos h]
  · intro h
    rw [osc_square, if_neg (not_lt.mpr h)]
  · intro h
    rw [osc_square, if_neg (not_lt.mpr (le_of_eq h))]
  · have hs : Real.sin (phase dHertz 0 dLFOHertz dLFOAmplitude) = 0 := by
      simp [phase]
    rw [osc_square, hs]
    norm_num

/-- The amended C11 at a quarter of a period of a 1 Hz tone, where the sine is
1, and at half a period, where the sine is 0. -/
theorem square_tie_break_witness :
    (Real.sin (phase 1 (1 / 4) 0 0) > 0 ∧ osc 1 (1 / 4) SQUARE 0 0 0 = 1)
    ∧ (Real.sin (phase 1 (1 / 2) 0 0) = 0 ∧ osc 1 (1 / 2) SQUARE 0 0 0 = -1) := by
  have h1 : Real.sin (phase 1 (1 / 4) 0 0) = 1 := by
    have hp : phase 1 (1 / 4) 0 0 = Real.pi / 2 := by
      unfold phase
      ring
    rw [hp, Real.sin_pi_div_two]
  have h2 : Real.sin (phase 1 (1 / 2) 0 0) = 0 := by
    have hp : phase 1 (1 / 2) 0 0 = Real.pi := by
      unfold phase
      ring
    rw [hp, Real.sin_pi]
  have hpos : Real.sin (phase 1 (1 / 4) 0 0) > 0 := by
    rw [h1]
    exact one_pos
  exact ⟨⟨hpos, (square_tie_break 1 (1 / 4) 0 0 0).1 hpos⟩,
    ⟨h2, (square_tie_break 1 (1 / 2) 0 0 0).2.2.1 h2⟩⟩

/-- Entered with the counter at `n ≤ 51`, the loop of the `SAW_ANA` case adds
the terms of index `n, ..., 50` to the accumulator and stops. -/
theorem sawAnaLoop_eq (dFreq : ℝ) (m : ℕ) :
    ∀ (n : ℕ) (dOutput : ℝ), n + m = 51 →
      sawAnaLoop dFreq n dOutput
        = dOutput + ∑ k ∈ Finset.Ico n 51, Real.sin ((k : ℝ) * dFreq) / (k : ℝ) := by
  induction m with
  | zero =>
    intro n dOutput h
    have hn : n = 51 := by omega
    subst hn
    rw [sawAnaLoop]
    simp
  | succ m ih =>
    intro n dOutput h
    have hle : n ≤ 50 := by omega
    have hlt : n < 51 := by omega
    rw [sawAnaLoop, if_pos hle, ih (n + 1) _ (by omega), Finset.sum_eq_sum_Ico_succ_bot hlt]
    ring

theorem osc_saw_ana (dHertz dTime dLFOHertz dLFOAmplitude : ℝ) (nRand : ℕ) :
    osc dHertz dTime SAW_ANA dLFOHertz dLFOAmplitude nRand
      = (2 / Real.pi) * harmonicSum (phase dHertz dTime dLFOHertz dLFOAmplitude) := by
  have h0 : ¬ (SAW_ANA = SINE) := by decide
  have h1 : ¬ (SAW_ANA = SQUARE) := by decide
  have h2 : ¬ (SAW_ANA = TRIANGLE) := by decide
  have hI : Finset.Ico 1 51 = (Finset.Icc 1 50 : Finset ℕ) := by
    ext k
    simp only [Finset.mem_Ico, Finset.mem_Icc]
    omega
  simp only [osc, if_neg h0, if_neg h1, if_neg h2, if_true, dFreq_eq_phase, PI]
  rw [sawAnaLoop_eq _ 50 1 _ (by norm_num), hI, harmonicSum]
  norm_num
  ring

/-- C12. Bound of the additive sawtooth: for every pitch, time and LFO
parameters, `osc` with `SAW_ANA` returns `(2/π)` times the sum over
`n = 1..50` of `sin(n·phase)/n`, a sum of exactly 50 terms, and its magnitude is
at most `(2/π) * (1 + 1/2 + ... + 1/50)`. -/
theorem saw_ana_bounded (dHertz dTime dLFOHertz dLFOAmplitude : ℝ) (nRand : ℕ) :
    osc dHertz dTime SAW_ANA dLFOHertz dLFOAmplitude nRand
      = (2 / Real.pi) * ∑ n ∈ (Finset.Icc 1 50 : Finset ℕ),
          Real.sin ((n : ℝ) * phase dHertz dTime dLFOHertz dLFOAmplitude) / (n : ℝ)
    ∧ (Finset.Icc 1 50 : Finset ℕ).card = 50
    ∧ |osc dHertz dTime SAW_ANA dLFOHertz dLFOAmplitude nRand|
      ≤ (2 / Real.pi) * ∑ n ∈ (Finset.Icc 1 50 : Finset ℕ), 1 / (n : ℝ) := by
  have hk : (0 : ℝ) ≤ 2 / Real.pi := le_of_lt (div_pos two_pos Real.pi_pos)
  refine ⟨osc_saw_ana _ _ _ _ _, by simp, ?_⟩
  rw [osc_saw_ana, abs_mul, abs_of_nonneg hk]
  apply mul_le_mul_of_nonneg_left _ hk
  unfold harmonicSum
  refine le_trans (Finset.abs_sum_le_sum_abs _ _) (Finset.sum_le_sum ?_)
  intro n hn
  have hn1 : 1 ≤ n := (Finset.mem_Icc.mp hn).1
  have hpos : (0 : ℝ) < (n : ℝ) := by exact_mod_cast hn1
  rw [abs_div, abs_of_pos hpos]
  exact div_le_div_of_nonneg_right (Real.abs_sin_le_one _) (le_of_lt hpos)

end OscillatorClaims

/-! ## The range of the envelope -/

section EnvelopeRange

variable [LinearOrderedField α]

theorem snapLow_range (v : α) : snapLow v = 0 ∨ 0.0001 < snapLow v := by
  unfold snapLow
  by_cases h : v ≤ 0.0001
  · left
    rw [if_pos h]
    norm_num
  · right
    rw [if_neg h]
    exact not_le.mp h

/-- The value returned by `GetAmplitude` is the snap of some raw amplitude. -/
theorem getAmplitude_is_snap (e : sEnvelopeADSR α) (t : α) :
    ∃ v : α, e.GetAmplitude t = snapLow v := by
  unfold sEnvelopeADSR.GetAmplitude snapLow
  exact ⟨_, rfl⟩

/-- In the exact model the amplitude is either exactly 0 or strictly greater
than 0.0001, and never negative. -/
theorem amplitude_range (e : sEnvelopeADSR α) (t : α) :
    (e.GetAmplitude t = 0 ∨ 0.0001 < e.GetAmplitude t) ∧ 0 ≤ e.GetAmplitude t := by
  obtain ⟨v, hv⟩ := getAmplitude_is_snap e t
  have h := snapLow_range v
  rw [← hv] at h
  refine ⟨h, ?_⟩
  rcases h with h0 | hpos
  · rw [h0]
  · have h4 : (0 : α) < 0.0001 := by norm_num
    exact le_of_lt (lt_trans h4 hpos)

/-- With the configuration of the bell (attack 0.01, decay 1, release 1, start
level 1, sustain level 0) the amplitude lies in `[0, 1]`, whatever the trigger
state. -/
theorem bell_amplitude_range (e : sEnvelopeADSR α) (t : α)
    (hA : e.dAttackTime = 0.01) (hD : e.dDecayTime = 1.0) (hR : e.dReleaseTime = 1.0)
    (hSt : e.dStartAmplitude = 1.0) (hSu : e.dSustainAmplitude = 0.0) :
    0 ≤ e.GetAmplitude t ∧ e.GetAmplitude t ≤ 1 := by
  have hlo : 0 ≤ e.GetAmplitude t := by
    obtain ⟨v, hv⟩ := getAmplitude_is_snap e t
    rcases snapLow_range v with h0 | hpos
    · rw [hv, h0]
    · rw [hv]
      have h4 : (0 : α) < 0.0001 := by norm_num
      exact le_of_lt (lt_trans h4 hpos)
  refine ⟨hlo, ?_⟩
  unfold sEnvelopeADSR.GetAmplitude
  rw [hA, hD, hR, hSt, hSu]
  simp only []
  split_ifs <;> norm_num at * <;> linarith

end EnvelopeRange

/-- The calls `NoteOn` and `NoteOff` leave the five configuration fields as
they are. -/
theorem run_config (e : sEnvelopeADSR α) (calls : List (Trigger α)) :
    (e.run calls).dAttackTime = e.dAttackTime
    ∧ (e.run calls).dDecayTime = e.dDecayTime
    ∧ (e.run calls).dReleaseTime = e.dReleaseTime
    ∧ (e.run calls).dStartAmplitude = e.dStartAmplitude
    ∧ (e.run calls).dSustainAmplitude = e.dSustainAmplitude := by
  induction calls generalizing e with
  | nil => simp [sEnvelopeADSR.run]
  | cons c cs ih =>
    have h := ih (e.trigger c)
    have hrun : e.run (c :: cs) = (e.trigger c).run cs := rfl
    rw [hrun]
    cases c <;> exact h

/-! ## The bell and the sample callback -/

section BellClaims

theorem bell_sound_eq (b : instrument ℝ) (t p d : ℝ) :
    bell.sound b p t d = b.env.GetAmplitude t * bellMix t p := by
  have h2 : p * 2.0 = 2 * p := by norm_num; ring
  have h3 : p * 3.0 = 3 * p := by norm_num; ring
  have h4 : p * 4.0 = 4 * p := by norm_num; ring
  have h0 : (0.0 : ℝ) = 0 := by norm_num
  have hS : (0 : ℤ) = SINE := rfl
  simp only [bell.sound, bellMix, h2, h3, h4, h0, hS]

/-- The sine mix of the bell at pitch 1/4 Hz and time 1: the three partials
are at phase `π`, `3π/2` and `2π`. -/
theorem bellMix_one_quarter : bellMix 1 (1 / 4) = -0.5 := by
  have hl : Real.sin (2 * Real.pi * 5 * 1) = 0 := by
    have h : 2 * Real.pi * 5 * 1 = ((10 : ℕ) : ℝ) * Real.pi := by push_cast; ring
    rw [h, Real.sin_nat_mul_pi]
  have p1 : phase (2 * (1 / 4)) 1 5 0.001 = Real.pi := by
    unfold phase
    rw [hl]
    ring
  have p2 : phase (3 * (1 / 4)) 1 0 0 = Real.pi / 2 + Real.pi := by
    unfold phase
    ring
  have p3 : phase (4 * (1 / 4)) 1 0 0 = 2 * Real.pi := by
    unfold phase
    ring
  unfold bellMix
  rw [osc_sine, osc_sine, osc_sine, p1, p2, p3, Real.sin_pi, Real.sin_add_pi,
    Real.sin_pi_div_two, Real.sin_two_pi]
  norm_num

theorem voiceHeld_amplitude_one : (voiceHeld : instrument ℝ).env.GetAmplitude 1 = 0.01 := by
  norm_num [voiceHeld, voice, bell.ctor, sEnvelopeADSR.ctor, sEnvelopeADSR.NoteOn,
    sEnvelopeADSR.GetAmplitude]

/-- C13, as stated, fails: for the voice of the program (whose `dVolume` is 0)
one second after `NoteOn(0)` at pitch 1/4 Hz, `bell::sound` is `-0.005`, while
the product with the volume is 0. -/
theorem bell_recipe_counterexample :
    bell.sound voiceHeld (1 / 4) 1 (1 / 4) = -0.005
    ∧ (voiceHeld : instrument ℝ).dVolume * (voiceHeld : instrument ℝ).env.GetAmplitude 1
        * bellMix 1 (1 / 4) = 0
    ∧ bell.sound voiceHeld (1 / 4) 1 (1 / 4)
        ≠ (voiceHeld : instrument ℝ).dVolume * (voiceHeld : instrument ℝ).env.GetAmplitude 1
            * bellMix 1 (1 / 4) := by
  have hs : bell.sound voiceHeld (1 / 4) 1 (1 / 4) = -0.005 := by
    rw [bell_sound_eq, voiceHeld_amplitude_one, bellMix_one_quarter]
    norm_num
  have hv : (voiceHeld : instrument ℝ).dVolume = 0 := by
    norm_num [voiceHeld, voice, bell.ctor]
  have hz : (voiceHeld : instrument ℝ).dVolume * (voiceHeld : instrument ℝ).env.GetAmplitude 1
      * bellMix 1 (1 / 4) = 0 := by
    rw [hv]
    ring
  refine ⟨hs, hz, ?_⟩
  rw [hs, hz]
  norm_num

/-- C13, amended. Bell recipe: for every time `t`, shared pitch `p`, envelope
state and instrument volume, `bell::sound(t, p)` equals
`env.GetAmplitude(t) * (1.0 * osc(2p, t, SINE, 5, 0.001) + 0.5 * osc(3p, t, SINE)
+ 0.25 * osc(4p, t, SINE))`: the weighted sine mix is multiplied by the
envelope's current amplitude, and the instrument's volume is not a factor (the
result is the same for every value of `dVolume`). -/
theorem bell_recipe (b : instrument ℝ) (t p d : ℝ) :
    bell.sound b p t d = b.env.GetAmplitude t
      * (1.0 * osc (2 * p) t SINE 5 0.001 0 + 0.5 * osc (3 * p) t SINE 0 0 0
          + 0.25 * osc (4 * p) t SINE 0 0 0)
    ∧ ∀ dVolume : ℝ, bell.sound { b with dVolume := dVolume } p t d = bell.sound b p t d := by
  constructor
  · rw [bell_sound_eq, bellMix]
  · intro dVolume
    rw [bell_sound_eq, bell_sound_eq]

/-- The sine mix of the bell has magnitude at most `1 + 0.5 + 0.25`. -/
theorem bellMix_bound (t p : ℝ) : |bellMix t p| ≤ 1.75 := by
  unfold bellMix
  rw [osc_sine, osc_sine, osc_sine]
  have a1 := Real.neg_one_le_sin (phase (2 * p) t 5 0.001)
  have a2 := Real.sin_le_one (phase (2 * p) t 5 0.001)
  have b1 := Real.neg_one_le_sin (phase (3 * p) t 0 0)
  have b2 := Real.sin_le_one (phase (3 * p) t 0 0)
  have c1 := Real.neg_one_le_sin (phase (4 * p) t 0 0)
  have c2 := Real.sin_le_one (phase (4 * p) t 0 0)
  rw [abs_le]
  constructor <;> norm_num <;> linarith

/-- C14. Output range of the sample callback: with the bell voice as
constructed, for every envelope state reached from it by a sequence of
`NoteOn` / `NoteOff` calls, every shared pitch and every time,
`MakeNoise(t) = 0.2 * voice.sound(t, pitch)` lies in `[-1, 1]`. -/
theorem make_noise_range (dVolume : ℝ) (calls : List (Trigger ℝ)) (p t : ℝ) :
    MakeNoise { bell.ctor dVolume with env := (bell.ctor dVolume).env.run calls } p t
      = 0.2 * bell.sound { bell.ctor dVolume with env := (bell.ctor dVolume).env.run calls }
          p t p
    ∧ -1 ≤ MakeNoise { bell.ctor dVolume with env := (bell.ctor dVolume).env.run calls } p t
    ∧ MakeNoise { bell.ctor dVolume with env := (bell.ctor dVolume).env.run calls } p t ≤ 1 := by
  obtain ⟨hA, hD, hR, hSt, hSu⟩ := run_config (bell.ctor dVolume).env calls
  have hAmp := bell_amplitude_range ((bell.ctor dVolume).env.run calls) t
    (by rw [hA]; rfl) (by rw [hD]; rfl) (by rw [hR]; rfl) (by rw [hSt]; rfl) (by rw [hSu]; rfl)
  have hMix := abs_le.mp (bellMix_bound t p)
  have hEq : MakeNoise { bell.ctor dVolume with env := (bell.ctor dVolume).env.run calls } p t
      = 0.2 * (((bell.ctor dVolume).env.run calls).GetAmplitude t * bellMix t p) := by
    unfold MakeNoise
    rw [bell_sound_eq]
  refine ⟨rfl, ?_, ?_⟩
  · rw [hEq]
    nlinarith [hAmp.1, hAmp.2, hMix.1, hMix.2]
  · rw [hEq]
    nlinarith [hAmp.1, hAmp.2, hMix.1, hMix.2]

/-- C16. End-to-end bell scenario: for a freshly constructed bell, after
`env.NoteOn(0.0)` the amplitude is 0 at `t = 0.0` (so `MakeNoise(0.0) = 0`), 0.5
at `t = 0.005`, 1.0 at `t = 0.01` and 0.01 at `t = 1.0`; after a subsequent
`env.NoteOff(1.0)` the amplitude at `t = 2.0` is 0 and `MakeNoise(2.0) = 0`. -/
theorem bell_scenario (dVolume p : ℝ) :
    ((bell.ctor dVolume).env.NoteOn 0.0).GetAmplitude 0.0 = 0
    ∧ MakeNoise { bell.ctor dVolume with env := (bell.ctor dVolume).env.NoteOn 0.0 } p 0.0 = 0
    ∧ ((bell.ctor dVolume).env.NoteOn 0.0).GetAmplitude 0.005 = 0.5
    ∧ ((bell.ctor dVolume).env.NoteOn 0.0).GetAmplitude 0.01 = 1.0
    ∧ ((bell.ctor dVolume).env.NoteOn 0.0).GetAmplitude 1.0 = 0.01
    ∧ (((bell.ctor dVolume).env.NoteOn 0.0).NoteOff 1.0).GetAmplitude 2.0 = 0
    ∧ MakeNoise { bell.ctor dVolume with
        env := ((bell.ctor dVolume).env.NoteOn 0.0).NoteOff 1.0 } p 2.0 = 0 := by
  have h0 : ((bell.ctor dVolume).env.NoteOn 0.0).GetAmplitude 0.0 = 0 := by
    norm_num [bell.ctor, sEnvelopeADSR.ctor, sEnvelopeADSR.NoteOn, sEnvelopeADSR.GetAmplitude]
  have h2 : (((bell.ctor dVolume).env.NoteOn 0.0).NoteOff 1.0).GetAmplitude 2.0 = 0 := by
    norm_num [bell.ctor, sEnvelopeADSR.ctor, sEnvelopeADSR.NoteOn, sEnvelopeADSR.NoteOff,
      sEnvelopeADSR.GetAmplitude]
  refine ⟨h0, ?_, ?_, ?_, ?_, h2, ?_⟩
  · unfold MakeNoise
    rw [bell_sound_eq]
    simp only []
    rw [h0]
    ring
  · norm_num [bell.ctor, sEnvelopeADSR.ctor, sEnvelopeADSR.NoteOn, sEnvelopeADSR.GetAmplitude]
  · norm_num [bell.ctor, sEnvelopeADSR.ctor, sEnvelopeADSR.NoteOn, sEnvelopeADSR.GetAmplitude]
  · norm_num [bell.ctor, sEnvelopeADSR.ctor, sEnvelopeADSR.NoteOn, sEnvelopeADSR.GetAmplitude]
  · unfold MakeNoise
    rw [bell_sound_eq]
    simp only []
    rw [h2]
    ring

end BellClaims

/-! ## The key driver: the loop -/

section DriverLemmas

theorem dSemitoneRatio_rpow (x : ℝ) : dSemitoneRatio ^ x = (2 : ℝ) ^ (x / 12) := by
  unfold dSemitoneRatio
  have h2 : (2.0 : ℝ) = 2 := by norm_num
  rw [h2, ← Real.rpow_mul (by norm_num : (0 : ℝ) ≤ 2)]
  congr 1
  norm_num
  ring

theorem keyBody_up (keyDown : ℕ → Bool) (t : ℝ) (s : DriverState) (k : ℕ)
    (h : keyDown k = false) : keyBody keyDown t s k = s := by
  simp [keyBody, h]

theorem keyBody_same (keyDown : ℕ → Bool) (t : ℝ) (s : DriverState) (k : ℕ)
    (h : keyDown k = true) (hk : s.nCurrentKey = (k : ℤ)) :
    keyBody keyDown t s k = { s with bKeyPressed := true } := by
  simp [keyBody, h, hk]

theorem keyBody_new (keyDown : ℕ → Bool) (t : ℝ) (s : DriverState) (k : ℕ)
    (h : keyDown k = true) (hk : s.nCurrentKey ≠ (k : ℤ)) :
    keyBody keyDown t s k
      = { nCurrentKey := (k : ℤ), bKeyPressed := true,
          dFrequencyOutput := dOctaveBaseFrequency * dSemitoneRatio ^ (k : ℝ),
          env := s.env.NoteOn t, issued := s.issued ++ [KeyEvent.NoteOn k t] } := by
  simp [keyBody, h, hk]

theorem keyLoop_zero (keyDown : ℕ → Bool) (t : ℝ) (s : DriverState) :
    keyLoop keyDown t 0 s = s := by
  simp [keyLoop]

theorem keyLoop_succ (keyDown : ℕ → Bool) (t : ℝ) (n : ℕ) (s : DriverState) :
    keyLoop keyDown t (n + 1) s = keyBody keyDown t (keyLoop keyDown t n s) n := by
  simp [keyLoop, List.range_succ, List.foldl_append]

/-- While no key below `n` is down the `for` loop changes nothing. -/
theorem keyLoop_no_key (keyDown : ℕ → Bool) (t : ℝ) (n : ℕ) (s : DriverState)
    (h : ∀ k, k < n → keyDown k = false) : keyLoop keyDown t n s = s := by
  induction n with
  | zero => exact keyLoop_zero keyDown t s
  | succ n ih =>
    rw [keyLoop_succ, ih (fun k hk => h k (Nat.lt_succ_of_lt hk)),
      keyBody_up keyDown t s n (h n (Nat.lt_succ_self n))]

/-- The flag `bKeyPressed` after the `for` loop: set as soon as a key below `n`
is down. -/
theorem keyLoop_pressed (keyDown : ℕ → Bool) (t : ℝ) (n : ℕ) (s : DriverState) :
    (keyLoop keyDown t n s).bKeyPressed = (s.bKeyPressed || (List.range n).any keyDown) := by
  induction n with
  | zero => simp [keyLoop_zero]
  | succ n ih =>
    rw [keyLoop_succ]
    cases hd : keyDown n with
    | false =>
      rw [keyBody_up keyDown t _ n hd, ih]
      simp [List.range_succ, hd]
    | true =>
      have hb : (keyBody keyDown t (keyLoop keyDown t n s) n).bKeyPressed = true := by
        by_cases hk : (keyLoop keyDown t n s).nCurrentKey = (n : ℤ)
        · rw [keyBody_same keyDown t _ n hd hk]
        · rw [keyBody_new keyDown t _ n hd hk]
      rw [hb]
      simp [List.range_succ, hd]

/-- The local `nCurrentKey` after the `for` loop: the last key below `n` that
is down, or its old value when there is none. -/
theorem keyLoop_current (keyDown : ℕ → Bool) (t : ℝ) (n : ℕ) (s : DriverState) :
    (keyLoop keyDown t n s).nCurrentKey
      = (match ((List.range n).filter keyDown).getLast? with
          | some k => (k : ℤ)
          | none => s.nCurrentKey) := by
  induction n with
  | zero => simp [keyLoop_zero]
  | succ n ih =>
    rw [keyLoop_succ]
    cases hd : keyDown n with
    | false =>
      rw [keyBody_up keyDown t _ n hd, ih]
      simp [List.range_succ, List.filter_append, hd]
    | true =>
      have hb : (keyBody keyDown t (keyLoop keyDown t n s) n).nCurrentKey = (n : ℤ) := by
        by_cases hk : (keyLoop keyDown t n s).nCurrentKey = (n : ℤ)
        · rw [keyBody_same keyDown t _ n hd hk]
          exact hk
        · rw [keyBody_new keyDown t _ n hd hk]
      rw [hb]
      simp [List.range_succ, List.filter_append, hd]

/-- The calls made by the `for` loop: only `NoteOn` calls; when there is none
the pitch and the envelope are untouched, otherwise the pitch is the one of the
key of the last call. -/
theorem keyLoop_issued (keyDown : ℕ → Bool) (t : ℝ) (n : ℕ) (s : DriverState) :
    ∃ evs : List KeyEvent,
      (keyLoop keyDown t n s).issued = s.issued ++ evs
      ∧ (∀ ev ∈ evs, ev.isOn = true)
      ∧ (evs = [] → (keyLoop keyDown t n s).dFrequencyOutput = s.dFrequencyOutput
          ∧ (keyLoop keyDown t n s).env = s.env)
      ∧ (∀ k : ℕ, (evs.filterMap KeyEvent.onIndex?).getLast? = some k →
          (keyLoop keyDown t n s).dFrequencyOutput
            = dOctaveBaseFrequency * dSemitoneRatio ^ (k : ℝ)) := by
  induction n with
  | zero =>
    refine ⟨[], ?_, ?_, ?_, ?_⟩
    · simp [keyLoop_zero]
    · intro ev hev
      simp at hev
    · intro _
      simp [keyLoop_zero]
    · intro k hk
      simp at hk
  | succ n ih =>
    obtain ⟨evs, hI, hOn, hNil, hLast⟩ := ih
    rw [keyLoop_succ]
    cases hd : keyDown n with
    | false =>
      rw [keyBody_up keyDown t _ n hd]
      exact ⟨evs, hI, hOn, hNil, hLast⟩
    | true =>
      by_cases hk : (keyLoop keyDown t n s).nCurrentKey = (n : ℤ)
      · rw [keyBody_same keyDown t _ n hd hk]
        exact ⟨evs, hI, hOn, hNil, hLast⟩
      · rw [keyBody_new keyDown t _ n hd hk]
        refine ⟨evs ++ [KeyEvent.NoteOn n t], ?_, ?_, ?_, ?_⟩
        · simp [hI]
        · intro ev hev
          rcases List.mem_append.mp hev with h | h
          · exact hOn ev h
          · rw [List.mem_singleton.mp h]
            rfl
        · intro h
          simp at h
        · intro k hk'
          simp [List.filterMap_append, KeyEvent.onIndex?] at hk'
          rw [hk']

/-- Keys that are up at the end of the range do not matter. -/
theorem keyLoop_above (keyDown : ℕ → Bool) (t : ℝ) (m n : ℕ) (s : DriverState)
    (hmn : m ≤ n) (h : ∀ k, m ≤ k → k < n → keyDown k = false) :
    keyLoop keyDown t n s = keyLoop keyDown t m s := by
  induction n with
  | zero =>
    have hm : m = 0 := Nat.le_zero.mp hmn
    rw [hm]
  | succ n ih =>
    rcases Nat.eq_or_lt_of_le hmn with heq | hlt
    · rw [heq]
    · have hle : m ≤ n := Nat.lt_succ_iff.mp hlt
      rw [keyLoop_succ, ih hle (fun k h1 h2 => h k h1 (Nat.lt_succ_of_lt h2)),
        keyBody_up keyDown t _ n (h n hle (Nat.lt_succ_self n))]

/-- While every key below `n` that is down is the current key, the `for` loop
only sets `bKeyPressed`. -/
theorem keyLoop_retained (keyDown : ℕ → Bool) (t : ℝ) (n : ℕ) (s : DriverState)
    (h : ∀ j, j < n → keyDown j = true → s.nCurrentKey = (j : ℤ)) :
    keyLoop keyDown t n s
      = { s with bKeyPressed := (s.bKeyPressed || (List.range n).any keyDown) } := by
  induction n with
  | zero => simp [keyLoop_zero]
  | succ n ih =>
    rw [keyLoop_succ, ih (fun j hj => h j (Nat.lt_succ_of_lt hj))]
    cases hd : keyDown n with
    | false =>
      rw [keyBody_up keyDown t _ n hd]
      simp [List.range_succ, hd]
    | true =>
      have hc : ({ s with bKeyPressed := (s.bKeyPressed || (List.range n).any keyDown) }
          : DriverState).nCurrentKey = (n : ℤ) := h n (Nat.lt_succ_self n) hd
      rw [keyBody_same keyDown t _ n hd hc]
      simp [List.range_succ, hd]

/-- An iteration with no key down. -/
theorem pollingIteration_no_key (keyDown : ℕ → Bool) (t : ℝ) (s : DriverState)
    (h : ∀ k, k < 16 → keyDown k = false) :
    pollingIteration keyDown t s
      = if s.nCurrentKey ≠ -1 then
          { nCurrentKey := -1, bKeyPressed := false, dFrequencyOutput := s.dFrequencyOutput,
            env := s.env.NoteOff t, issued := s.issued ++ [KeyEvent.NoteOff t] }
        else { s with bKeyPressed := false } := by
  unfold pollingIteration
  simp only []
  rw [keyLoop_no_key keyDown t 16 _ h]
  simp

/-- An iteration with a key down is the `for` loop alone. -/
theorem pollingIteration_key_down (keyDown : ℕ → Bool) (t : ℝ) (s : DriverState)
    (h : (List.range 16).any keyDown = true) :
    pollingIteration keyDown t s = keyLoop keyDown t 16 { s with bKeyPressed := false } := by
  have hp := keyLoop_pressed keyDown t 16 { s with bKeyPressed := false }
  rw [h] at hp
  unfold pollingIteration
  simp only []
  rw [hp]
  simp

/-- A single held key that is already the current key is retained: the
iteration makes no call and leaves the pitch and the envelope as they are. -/
theorem single_key_retained (keyDown : ℕ → Bool) (t : ℝ) (s : DriverState) (k : ℕ)
    (hk : k < 16) (hDown : keyDown k = true)
    (hOnly : ∀ j, j < 16 → keyDown j = true → j = k) (hCur : s.nCurrentKey = (k : ℤ)) :
    pollingIteration keyDown t s = { s with bKeyPressed := true } := by
  have hany : (List.range 16).any keyDown = true := by
    rw [List.any_eq_true]
    exact ⟨k, List.mem_range.mpr hk, hDown⟩
  rw [pollingIteration_key_down keyDown t s hany,
    keyLoop_retained keyDown t 16 _ (fun j hj hd => by rw [hOnly j hj hd]; exact hCur), hany]
  simp

end DriverLemmas

/-! ## The key driver: pitch, note-off edge and current key -/

section DriverClaims

/-- C15. Pitch mapping of the key driver: for every key index `k` in `0..15`,
the pitch written to `dFrequencyOutput` when the key is taken up,
`dOctaveBaseFrequency * pow(dSemitoneRatio, k)` with `dOctaveBaseFrequency = 220`
and `dSemitoneRatio = 2^(1/12)`, equals `220 * 2^(k/12)` over the reals; index 12
gives exactly 440 and index 0 gives 220. -/
theorem key_pitch (keyDown : ℕ → Bool) (t : ℝ) (s : DriverState) (k : ℕ) (hk : k ≤ 15)
    (hDown : keyDown k = true) (hNew : s.nCurrentKey ≠ (k : ℤ)) :
    (keyBody keyDown t s k).dFrequencyOutput
      = dOctaveBaseFrequency * dSemitoneRatio ^ (k : ℝ)
    ∧ dOctaveBaseFrequency = 220
    ∧ dSemitoneRatio = (2 : ℝ) ^ ((1 : ℝ) / 12)
    ∧ (keyBody keyDown t s k).dFrequencyOutput = 220 * (2 : ℝ) ^ ((k : ℝ) / 12)
    ∧ dOctaveBaseFrequency * dSemitoneRatio ^ ((12 : ℕ) : ℝ) = 440
    ∧ dOctaveBaseFrequency * dSemitoneRatio ^ ((0 : ℕ) : ℝ) = 220 := by
  have hB : dOctaveBaseFrequency = 220 := by
    unfold dOctaveBaseFrequency
    norm_num
  have hR : dSemitoneRatio = (2 : ℝ) ^ ((1 : ℝ) / 12) := by
    unfold dSemitoneRatio
    norm_num
  have hW : (keyBody keyDown t s k).dFrequencyOutput
      = dOctaveBaseFrequency * dSemitoneRatio ^ (k : ℝ) := by
    rw [keyBody_new keyDown t s k hDown hNew]
  refine ⟨hW, hB, hR, ?_, ?_, ?_⟩
  · rw [hW, hB, dSemitoneRatio_rpow]
  · rw [hB, dSemitoneRatio_rpow]
    norm_num
  · rw [hB, dSemitoneRatio_rpow]
    norm_num

/-- The pitch theorem at key 12, taken up from the initial state of the
driver: the pitch written is 440. -/
theorem key_pitch_witness :
    ((12 : ℕ) ≤ 15 ∧ octaveKey 12 = true ∧ DriverState.init.nCurrentKey ≠ ((12 : ℕ) : ℤ))
    ∧ (keyBody octaveKey 0 DriverState.init 12).dFrequencyOutput = 440 := by
  have h1 : (12 : ℕ) ≤ 15 := by decide
  have h2 : octaveKey 12 = true := by decide
  have h3 : DriverState.init.nCurrentKey ≠ ((12 : ℕ) : ℤ) := by
    simp [DriverState.init]
  have h := key_pitch octaveKey 0 DriverState.init 12 h1 h2 h3
  refine ⟨⟨h1, h2, h3⟩, ?_⟩
  rw [h.1]
  exact h.2.2.2.2.1

/-- C17. Note-off edge of the key driver: in an iteration in which no key is
down, `env.NoteOff(currentTime)` is called and `nCurrentKey` is set to `-1` when
`nCurrentKey` was not `-1` before; when it was already `-1` no call is made and
the envelope is untouched; in both cases the shared pitch is unchanged and no
`NoteOn` is called. -/
theorem note_off_edge (keyDown : ℕ → Bool) (t : ℝ) (s : DriverState)
    (hNone : ∀ k, k < 16 → keyDown k = false) :
    (s.nCurrentKey ≠ -1 →
      stepEvents keyDown t s = [KeyEvent.NoteOff t]
      ∧ (pollingIteration keyDown t s).env = s.env.NoteOff t
      ∧ (pollingIteration keyDown t s).nCurrentKey = -1)
    ∧ (s.nCurrentKey = -1 →
      stepEvents keyDown t s = []
      ∧ (pollingIteration keyDown t s).env = s.env
      ∧ (pollingIteration keyDown t s).nCurrentKey = -1)
    ∧ (pollingIteration keyDown t s).dFrequencyOutput = s.dFrequencyOutput
    ∧ ∀ ev ∈ stepEvents keyDown t s, ev.isOn = false := by
  have hP := pollingIteration_no_key keyDown t s hNone
  by_cases hc : s.nCurrentKey = -1
  · have hP2 : pollingIteration keyDown t s = { s with bKeyPressed := false } := by
      rw [hP, if_neg (not_not.mpr hc)]
    have hE : stepEvents keyDown t s = [] := by
      unfold stepEvents
      rw [hP2]
      simp
    refine ⟨fun h => absurd hc h, fun _ => ⟨hE, ?_, ?_⟩, ?_, ?_⟩
    · rw [hP2]
    · rw [hP2]
      exact hc
    · rw [hP2]
    · intro ev hev
      rw [hE] at hev
      simp at hev
  · have hP2 : pollingIteration keyDown t s
        = { nCurrentKey := -1, bKeyPressed := false, dFrequencyOutput := s.dFrequencyOutput,
            env := s.env.NoteOff t, issued := s.issued ++ [KeyEvent.NoteOff t] } := by
      rw [hP, if_pos hc]
    have hE : stepEvents keyDown t s = [KeyEvent.NoteOff t] := by
      unfold stepEvents
      rw [hP2]
      simp
    refine ⟨fun _ => ⟨hE, ?_, ?_⟩, fun h => absurd h hc, ?_, ?_⟩
    · rw [hP2]
    · rw [hP2]
    · rw [hP2]
    · intro ev hev
      rw [hE] at hev
      rw [List.mem_singleton.mp hev]
      rfl

/-- The note-off theorem at the empty keyboard while key 3 is the current key:
at time 5 the iteration calls `NoteOff(5)` and resets the current key. -/
theorem note_off_edge_witness :
    (∀ k, k < 16 → noKeys k = false)
    ∧ stepEvents noKeys 5 key3State = [KeyEvent.NoteOff 5]
    ∧ (pollingIteration noKeys 5 key3State).env.bNoteOn = false
    ∧ (pollingIteration noKeys 5 key3State).env.dTriggerOffTime = 5
    ∧ (pollingIteration noKeys 5 key3State).nCurrentKey = -1 := by
  have hNone : ∀ k, k < 16 → noKeys k = false := fun _ _ => rfl
  have hc : key3State.nCurrentKey ≠ -1 := by
    simp [key3State]
  have h := (note_off_edge noKeys 5 key3State hNone).1 hc
  refine ⟨hNone, h.1, ?_, ?_, h.2.2⟩
  · rw [h.2.1]
    rfl
  · rw [h.2.1]
    rfl

/-- C20. Current-key invariant of the polling step: for every prior value of
`nCurrentKey` and every assignment of the 16 key-down booleans, after one
iteration `nCurrentKey` is the largest index in `0..15` whose key is down, or
`-1` when no key is down; and when a key is down and a `NoteOn` was called in
the step, the shared pitch left by the step is `220 * dSemitoneRatio^k` for the
index `k` of the last `NoteOn` call. -/
theorem current_key_invariant (keyDown : ℕ → Bool) (t : ℝ) (s : DriverState) :
    (pollingIteration keyDown t s).nCurrentKey = largestDown keyDown
    ∧ ∀ k : ℕ, (∃ j, j < 16 ∧ keyDown j = true) →
        ((stepEvents keyDown t s).filterMap KeyEvent.onIndex?).getLast? = some k →
        (pollingIteration keyDown t s).dFrequencyOutput = 220 * dSemitoneRatio ^ (k : ℝ) := by
  have hB : dOctaveBaseFrequency = 220 := by
    unfold dOctaveBaseFrequency
    norm_num
  by_cases hany : (List.range 16).any keyDown = true
  · have hP := pollingIteration_key_down keyDown t s hany
    constructor
    · rw [hP, keyLoop_current]
      unfold largestDown
      cases hl : ((List.range 16).filter keyDown).getLast? with
      | some k => rfl
      | none =>
        exfalso
        rw [List.getLast?_eq_none_iff, List.filter_eq_nil_iff] at hl
        rw [List.any_eq_true] at hany
        obtain ⟨j, hj, hd⟩ := hany
        exact hl j hj hd
    · intro k _ hk
      obtain ⟨evs, hI, _, _, hLast⟩ := keyLoop_issued keyDown t 16 { s with bKeyPressed := false }
      have hE : stepEvents keyDown t s = evs := by
        unfold stepEvents
        rw [hP, hI]
        simp
      rw [hE] at hk
      rw [hP, hLast k hk, hB]
  · have hNone : ∀ k, k < 16 → keyDown k = false := by
      intro k hk
      by_contra hd
      apply hany
      rw [List.any_eq_true]
      exact ⟨k, List.mem_range.mpr hk, by simpa using hd⟩
    constructor
    · have hl : ((List.range 16).filter keyDown).getLast? = none := by
        rw [List.getLast?_eq_none_iff, List.filter_eq_nil_iff]
        intro j hj
        rw [hNone j (List.mem_range.mp hj)]
        simp
      unfold largestDown
      rw [hl, pollingIteration_no_key keyDown t s hNone]
      by_cases hc : s.nCurrentKey = -1
      · rw [if_neg (not_not.mpr hc)]
        exact hc
      · rw [if_pos hc]
    · intro k hex _
      obtain ⟨j, hj, hd⟩ := hex
      rw [hNone j hj] at hd
      exact absurd hd (by decide)

/-- With the keys 0 and 1 down the iteration is the body of the `for` loop
run for key 0 and then for key 1. -/
theorem pollingIteration_twoKeys (t : ℝ) (s : DriverState) :
    pollingIteration twoKeys t s
      = keyBody twoKeys t (keyBody twoKeys t { s with bKeyPressed := false } 0) 1 := by
  have hany : (List.range 16).any twoKeys = true := by decide
  have hUp : ∀ k, 2 ≤ k → k < 16 → twoKeys k = false := by
    intro k h1 _
    simp only [twoKeys, decide_eq_false_iff_not]
    omega
  rw [pollingIteration_key_down twoKeys t s hany,
    keyLoop_above twoKeys t 2 16 _ (by decide) hUp, keyLoop_succ, keyLoop_succ, keyLoop_zero]

/-- C18 fails on the code for a chord: with the keys 0 and 1 held, and held
already in the previous iteration (which left `nCurrentKey = 1` and the envelope
triggered at time 1), the next iteration, at time 2, calls `NoteOn` for key 0 and
again for key 1, moves `dTriggerOnTime` from 1 to 2 and rewrites the pitch, while
`nCurrentKey` ends at 1 as before. -/
theorem held_chord_retriggers :
    chordState.nCurrentKey = 1
    ∧ chordState.env.dTriggerOnTime = 1
    ∧ (∀ k, k < 16 → (twoKeys k = true ↔ (k = 0 ∨ k = 1)))
    ∧ (pollingIteration twoKeys 2 chordState).nCurrentKey = 1
    ∧ stepEvents twoKeys 2 chordState = [KeyEvent.NoteOn 0 2, KeyEvent.NoteOn 1 2]
    ∧ (pollingIteration twoKeys 2 chordState).env.dTriggerOnTime = 2
    ∧ (pollingIteration twoKeys 2 chordState).env.dTriggerOnTime
        ≠ chordState.env.dTriggerOnTime := by
  have hd0 : twoKeys 0 = true := by decide
  have hd1 : twoKeys 1 = true := by decide
  have hS : chordState
      = { nCurrentKey := ((1 : ℕ) : ℤ), bKeyPressed := true,
          dFrequencyOutput := dOctaveBaseFrequency * dSemitoneRatio ^ ((1 : ℕ) : ℝ),
          env := ((DriverState.init.env.NoteOn 1).NoteOn 1),
          issued := [KeyEvent.NoteOn 0 1, KeyEvent.NoteOn 1 1] } := by
    unfold chordState
    rw [pollingIteration_twoKeys,
      keyBody_new twoKeys 1 _ 0 hd0 (by simp [DriverState.init]),
      keyBody_new twoKeys 1 _ 1 hd1 (by simp)]
    simp [DriverState.init]
  have hN : pollingIteration twoKeys 2 chordState
      = { nCurrentKey := ((1 : ℕ) : ℤ), bKeyPressed := true,
          dFrequencyOutput := dOctaveBaseFrequency * dSemitoneRatio ^ ((1 : ℕ) : ℝ),
          env := ((chordState.env.NoteOn 2).NoteOn 2),
          issued := chordState.issued ++ [KeyEvent.NoteOn 0 2, KeyEvent.NoteOn 1 2] } := by
    rw [pollingIteration_twoKeys,
      keyBody_new twoKeys 2 _ 0 hd0 (by rw [hS]; simp),
      keyBody_new twoKeys 2 _ 1 hd1 (by simp)]
    simp
  have hT1 : chordState.env.dTriggerOnTime = 1 := by
    rw [hS]
    rfl
  have hT2 : (pollingIteration twoKeys 2 chordState).env.dTriggerOnTime = 2 := by
    rw [hN]
    rfl
  refine ⟨?_, hT1, ?_, ?_, ?_, hT2, ?_⟩
  · rw [hS]
    rfl
  · intro k _
    simp [twoKeys]
  · rw [hN]
    rfl
  · unfold stepEvents
    rw [hN]
    simp
  · rw [hT2, hT1]
    norm_num

end DriverClaims

/-! ## The range of the envelope with the special values of `double` -/

section EnvelopeIEEE

variable [LinearOrderedField α]

/-- For finite numbers, and as long as the divisor of the branch taken is not
zero, `GetAmplitude` computed with the arithmetic of `double` is the finite
number computed by the exact model.  The decay branch divides by `dDecayTime`
only when `dDecayTime > 0`. -/
theorem getAmplitudeIEEE_finite (e : sEnvelopeADSR α) (t : α)
    (hA : e.bNoteOn = true → t - e.dTriggerOnTime ≤ e.dAttackTime → e.dAttackTime ≠ 0)
    (hR : e.bNoteOn = false → e.dReleaseTime ≠ 0) :
    e.toIEEE.GetAmplitudeIEEE (Dbl.fin t) = Dbl.fin (e.GetAmplitude t) := by
  cases hb : e.bNoteOn with
  | false =>
    have hr := hR hb
    by_cases hs : (0.0 - e.dSustainAmplitude) / e.dReleaseTime * (t - e.dTriggerOffTime)
        + e.dSustainAmplitude ≤ 0.0001
    · simp [sEnvelopeADSR.GetAmplitudeIEEE, sEnvelopeADSR.GetAmplitude, sEnvelopeADSR.toIEEE,
        Dbl.sub, Dbl.add, Dbl.mul, Dbl.div, Dbl.le, hb, hr, hs]
    · simp [sEnvelopeADSR.GetAmplitudeIEEE, sEnvelopeADSR.GetAmplitude, sEnvelopeADSR.toIEEE,
        Dbl.sub, Dbl.add, Dbl.mul, Dbl.div, Dbl.le, hb, hr, hs]
  | true =>
    have hsnap : ∀ v : α, (if Dbl.le (Dbl.fin v) (Dbl.fin 0.0001) = true then Dbl.fin 0.0
        else Dbl.fin v) = Dbl.fin (if v ≤ 0.0001 then 0.0 else v) := by
      intro v
      by_cases hv : v ≤ 0.0001
      · simp [Dbl.le, hv]
      · simp [Dbl.le, hv]
    by_cases h1 : t - e.dTriggerOnTime ≤ e.dAttackTime
    · have ha := hA hb h1
      have h2 : ¬ (t - e.dTriggerOnTime > e.dAttackTime) := not_lt.mpr h1
      by_cases h3 : t - e.dTriggerOnTime > e.dAttackTime + e.dDecayTime
      · simp only [sEnvelopeADSR.GetAmplitudeIEEE, sEnvelopeADSR.GetAmplitude,
          sEnvelopeADSR.toIEEE, Dbl.sub, Dbl.add, Dbl.mul, Dbl.div, Dbl.le, Dbl.gt, hb, ha, h1,
          h2, h3, if_true, if_false, decide_True, decide_False, Bool.false_and, false_and]
        exact hsnap _
      · simp only [sEnvelopeADSR.GetAmplitudeIEEE, sEnvelopeADSR.GetAmplitude,
          sEnvelopeADSR.toIEEE, Dbl.sub, Dbl.add, Dbl.mul, Dbl.div, Dbl.le, Dbl.gt, hb, ha, h1,
          h2, h3, if_true, if_false, decide_True, decide_False, Bool.false_and, false_and]
        exact hsnap _
    · have h2 : t - e.dTriggerOnTime > e.dAttackTime := not_le.mp h1
      by_cases h3 : t - e.dTriggerOnTime > e.dAttackTime + e.dDecayTime
      · have h2b : ¬ (t - e.dTriggerOnTime ≤ e.dAttackTime + e.dDecayTime) := not_le.mpr h3
        simp only [sEnvelopeADSR.GetAmplitudeIEEE, sEnvelopeADSR.GetAmplitude,
          sEnvelopeADSR.toIEEE, Dbl.sub, Dbl.add, Dbl.mul, Dbl.div, Dbl.le, Dbl.gt, hb, h1,
          h2, h2b, h3, if_true, if_false, decide_True, decide_False, Bool.and_false, and_false,
          Bool.true_and]
        exact hsnap _
      · have h2b : t - e.dTriggerOnTime ≤ e.dAttackTime + e.dDecayTime := not_lt.mp h3
        have hd : e.dDecayTime ≠ 0 := by
          intro h0
          rw [h0, add_zero] at h2b
          exact h1 h2b
        simp only [sEnvelopeADSR.GetAmplitudeIEEE, sEnvelopeADSR.GetAmplitude,
          sEnvelopeADSR.toIEEE, Dbl.sub, Dbl.add, Dbl.mul, Dbl.div, Dbl.le, Dbl.gt, hb, hd, h1,
          h2, h2b, h3, if_true, if_false, decide_True, decide_False, Bool.and_self, and_self,
          Bool.true_and]
        exact hsnap _

/-- Whatever the configuration, special values included, the value returned
with the arithmetic of `double` is exactly 0, strictly greater than 0.0001, or
NaN. -/
theorem getAmplitudeIEEE_range (e : sEnvelopeADSR (Dbl α)) (t : Dbl α) :
    Dbl.ZeroOrAbove (e.GetAmplitudeIEEE t) ∨ e.GetAmplitudeIEEE t = Dbl.nan := by
  have hsnap : ∀ x : Dbl α,
      Dbl.ZeroOrAbove (if Dbl.le x (Dbl.fin 0.0001) = true then Dbl.fin 0.0 else x)
      ∨ (if Dbl.le x (Dbl.fin 0.0001) = true then Dbl.fin 0.0 else x) = Dbl.nan := by
    intro x
    have h00 : (0.0 : α) = 0 := by norm_num
    cases x with
    | fin v =>
      left
      by_cases hv : v ≤ 0.0001
      · left
        simp [Dbl.le, hv, h00]
      · right
        simp [Dbl.le, Dbl.gt, hv, not_le.mp hv]
    | pinf =>
      left
      right
      simp [Dbl.le, Dbl.gt]
    | ninf =>
      left
      left
      simp [Dbl.le, h00]
    | nan =>
      right
      simp [Dbl.le]
  unfold sEnvelopeADSR.GetAmplitudeIEEE
  exact hsnap _

/-- C19, as stated, fails: for the held envelope with attack time 0 (start
level 1), at the very time of the trigger, the attack branch computes
`(1.0 / 0.0) * 0.0`, that is `inf * 0 = NaN`; the two later guards are false and
so is `NaN <= 0.0001`, and `GetAmplitude` returns NaN, which is neither 0 nor
greater than 0.0001. -/
theorem amplitude_range_counterexample :
    Dbl.mul (Dbl.div (Dbl.fin (1.0 : ℚ)) (Dbl.fin 0.0)) (Dbl.fin 0.0) = Dbl.nan
    ∧ zeroAttackHeld.toIEEE.GetAmplitudeIEEE (Dbl.fin 0.0) = Dbl.nan
    ∧ ¬ Dbl.ZeroOrAbove (zeroAttackHeld.toIEEE.GetAmplitudeIEEE (Dbl.fin 0.0)) := by
  have hm : Dbl.mul (Dbl.div (Dbl.fin (1.0 : ℚ)) (Dbl.fin 0.0)) (Dbl.fin 0.0) = Dbl.nan := by
    norm_num [Dbl.mul, Dbl.div, Dbl.infOfSign]
  have hv : zeroAttackHeld.toIEEE.GetAmplitudeIEEE (Dbl.fin 0.0) = Dbl.nan := by
    norm_num [sEnvelopeADSR.GetAmplitudeIEEE, sEnvelopeADSR.toIEEE, zeroAttackHeld, Dbl.sub,
      Dbl.add, Dbl.mul, Dbl.div, Dbl.le, Dbl.gt, Dbl.infOfSign]
  refine ⟨hm, hv, ?_⟩
  rw [hv]
  intro h
  rcases h with h | h
  · exact Dbl.noConfusion h
  · simp [Dbl.gt] at h

/-- C19, amended. Range of the envelope amplitude: for every envelope state
whose numbers are finite and every finite time such that the divisor of the
branch taken is not zero (`dAttackTime` when the note is held and the elapsed
time is at most `dAttackTime`, `dReleaseTime` when the note is released),
`GetAmplitude` is either exactly 0 or strictly greater than 0.0001; in particular
it is never negative.  It is then the finite number given by the exact model. -/
theorem amplitude_range_finite (e : sEnvelopeADSR α) (t : α)
    (hA : e.bNoteOn = true → t - e.dTriggerOnTime ≤ e.dAttackTime → e.dAttackTime ≠ 0)
    (hR : e.bNoteOn = false → e.dReleaseTime ≠ 0) :
    Dbl.ZeroOrAbove (e.toIEEE.GetAmplitudeIEEE (Dbl.fin t))
    ∧ Dbl.gt (Dbl.fin 0) (e.toIEEE.GetAmplitudeIEEE (Dbl.fin t)) = false
    ∧ e.toIEEE.GetAmplitudeIEEE (Dbl.fin t) = Dbl.fin (e.GetAmplitude t)
    ∧ (e.GetAmplitude t = 0 ∨ 0.0001 < e.GetAmplitude t)
    ∧ 0 ≤ e.GetAmplitude t := by
  have hEq := getAmplitudeIEEE_finite e t hA hR
  obtain ⟨hRange, hNonneg⟩ := amplitude_range e t
  refine ⟨?_, ?_, hEq, hRange, hNonneg⟩
  · rw [hEq]
    rcases hRange with h0 | hpos
    · left
      rw [h0]
    · right
      simp [Dbl.gt, hpos]
  · rw [hEq]
    simp [Dbl.gt, hNonneg]

/-- The amended C19 at the bell envelope half-way up the attack ramp, where
the attack branch divides by `dAttackTime = 0.01`: the amplitude is 0.5. -/
theorem amplitude_range_finite_witness :
    ((bellHeld.bNoteOn = true → (0.005 : ℚ) - bellHeld.dTriggerOnTime ≤ bellHeld.dAttackTime →
        bellHeld.dAttackTime ≠ 0)
      ∧ (bellHeld.bNoteOn = false → bellHeld.dReleaseTime ≠ 0))
    ∧ bellHeld.toIEEE.GetAmplitudeIEEE (Dbl.fin 0.005) = Dbl.fin 0.5
    ∧ Dbl.ZeroOrAbove (bellHeld.toIEEE.GetAmplitudeIEEE (Dbl.fin 0.005)) := by
  have hA : bellHeld.bNoteOn = true → (0.005 : ℚ) - bellHeld.dTriggerOnTime
      ≤ bellHeld.dAttackTime → bellHeld.dAttackTime ≠ 0 := by
    intro _ _
    norm_num [bellHeld]
  have hR : bellHeld.bNoteOn = false → bellHeld.dReleaseTime ≠ 0 := by
    intro _
    norm_num [bellHeld]
  have h := amplitude_range_finite bellHeld 0.005 hA hR
  refine ⟨⟨hA, hR⟩, ?_, h.1⟩
  rw [h.2.2.1]
  norm_num [bellHeld, sEnvelopeADSR.GetAmplitude]

end EnvelopeIEEE

end synth
